import Mathlib

/-!
# Verification of the jstris-replay repository

Shallow embedding of `src/rng.rs` (the Alea PRNG, the `Mash` mixer and the
`JstrisBag` 7-piece bag randomizer) and of `src/lib.rs` (the event codec,
the `GameSeed` parser, the 12-bit timestamp type and the replay-version
decoder), together with theorems settling the frozen claims.

The Rust code computes with IEEE-754 `f64` values.  We model every `f64`
as the exact rational it denotes and model each primitive operation as the
exact rational operation followed by `fround`, correct rounding to a
53-bit mantissa with round-to-nearest, ties-to-even.  All values reached
by this program stay far inside the normal range of binary64 (well below
`2^53` in magnitude and above `2^-1074`), so neither overflow to infinity
nor subnormal loss of precision can occur and this model is exact.
-/

set_option maxRecDepth 4000000

attribute [local semireducible] Rat.add Rat.sub Rat.mul Rat.inv Rat.ofScientific

/-! ## Binary64 rounding -/

/-- Fuelled binary length: `bitsAux fuel n` is the number of binary digits
of `n`, provided `n < 2 ^ fuel`. -/
def bitsAux : ℕ → ℕ → ℕ
  | 0, _ => 0
  | fuel+1, n => if n = 0 then 0 else bitsAux fuel (n / 2) + 1

/-- Number of binary digits of `n` (`0` for `0`). -/
def bitlen (n : ℕ) : ℕ := bitsAux n n

/-- Round a natural (a scaled mantissa) to 53 significant bits,
round-to-nearest, ties to even: values of 53 bits or fewer are kept;
otherwise the low `shift` bits are dropped, rounding up when the
remainder exceeds half of the grid step `2 ^ shift`, down when below,
and to the even neighbour on a tie. -/
def round53 (N : ℕ) : ℕ :=
  if bitlen N ≤ 53 then N
  else
    (N / 2 ^ (bitlen N - 53) +
      (if 2 ^ (bitlen N - 53 - 1) < N % 2 ^ (bitlen N - 53) then 1
       else if N % 2 ^ (bitlen N - 53) < 2 ^ (bitlen N - 53 - 1) then 0
       else N / 2 ^ (bitlen N - 53) % 2)) * 2 ^ (bitlen N - 53)

/-- Round a nonnegative rational (arising as an exact sum/product of
binary64 values, hence with a power-of-two denominator) to a 53-bit
mantissa: round the numerator of the reduced form to 53 significant
bits, keeping the denominator as the grid. -/
def roundPos (q : ℚ) : ℚ := Rat.divInt (round53 q.num.toNat) q.den

/-- IEEE-754 binary64 round-to-nearest-even of an exact rational value. -/
def fround (q : ℚ) : ℚ := if q < 0 then -roundPos (-q) else roundPos q

/-- `f64` addition: exact sum, correctly rounded. -/
def fadd (a b : ℚ) : ℚ := fround (a + b)

/-- `f64` subtraction: exact difference, correctly rounded. -/
def fsub (a b : ℚ) : ℚ := fround (a - b)

/-- `f64` multiplication: exact product, correctly rounded. -/
def fmul (a b : ℚ) : ℚ := fround (a * b)

/-- `f64::trunc`: round toward zero to an integer (exact on binary64). -/
def ftrunc (q : ℚ) : ℚ := (q.num.tdiv (q.den : ℤ) : ℚ)

/-- `f64::floor` (exact on binary64). -/
def ffloor (q : ℚ) : ℚ := (Rat.floor q : ℚ)

/-- `f64::fract = self - self.trunc()` (`src/rng.rs` line 86 uses it via
`t.fract()`). -/
def ffract (q : ℚ) : ℚ := fsub q (ftrunc q)

/-- Rust `as u32` cast from `f64`: truncate toward zero and saturate into
`[0, 2^32 - 1]` (the NaN case cannot arise in this model). -/
def f64toU32 (q : ℚ) : ℕ := min (q.num.tdiv (q.den : ℤ)).toNat (2 ^ 32 - 1)

/-- Rust `as usize` cast from `f64` (64-bit target), truncating and
saturating into `[0, 2^64 - 1]`. -/
def f64toUsize (q : ℚ) : ℕ := min (q.num.tdiv (q.den : ℤ)).toNat (2 ^ 64 - 1)

/-! ## `src/rng.rs`: the `Mash` mixer

Strings are modelled as their lists of UTF-16 code units (`ℕ`), exactly
what `str::encode_utf16` yields in `Mash::mash`. -/

/-- The `f64` literal `0.02519603282416938` of `src/rng.rs` line 18:
its exact binary64 value is `3462916383 / 2^37`. -/
def mashFactor : ℚ := Rat.divInt 3462916383 (2 ^ 37)

/-- The `f64` literal `2.3283064365386963e-10` of `src/rng.rs` lines 29
and 81: its exact binary64 value is `2^-32`. -/
def inv2p32 : ℚ := Rat.divInt 1 (2 ^ 32)

/-- The `f64` literal `4294967296.` of `src/rng.rs` line 26 (`2^32`,
exactly representable). -/
def two32f : ℚ := (4294967296 : ℚ)

/-- `Mash` holds one `u32` accumulator (`state`), kept below `2^32`. -/
structure Mash where
  state : ℕ

deriving DecidableEq

/-- `Mash::new`: the accumulator starts at `4_022_871_197` (`0xefc8249d`). -/
def Mash.init : Mash := ⟨4022871197⟩

/-- One iteration of the loop body of `Mash::mash` for code unit `b`.
`u32` addition wraps (release semantics), modelled with `% 2^32`. -/
def mashStep (st b : ℕ) : ℕ :=
  let st : ℕ := (st + b) % 2 ^ 32
  let h : ℚ := fmul mashFactor (st : ℚ)
  let st : ℕ := f64toU32 h
  let h : ℚ := fsub h (st : ℚ)
  let h : ℚ := fmul h (st : ℚ)
  let st : ℕ := f64toU32 h
  let h : ℚ := fsub h (st : ℚ)
  (st + f64toU32 (fmul h two32f)) % 2 ^ 32

/-- `Mash::mash`: fold the loop body over the code units, then return
`state as f64 * 2.3283064365386963e-10` together with the mutated mixer. -/
def Mash.mash (m : Mash) (data : List ℕ) : ℚ × Mash :=
  let st := data.foldl mashStep m.state
  (fmul (st : ℚ) inv2p32, ⟨st⟩)

/-! ## `src/rng.rs`: `AleaPrng` -/

structure AleaPrng where
  c : ℕ
  s0 : ℚ
  s1 : ℚ
  s2 : ℚ

deriving DecidableEq

/-- Body of the seed loop of `AleaPrng::new`: three further mashes of the
seed string are subtracted from `s0`, `s1`, `s2`, then each is wrapped
back into `[0,1)` if it went negative. -/
def seedStep (acc : ℚ × ℚ × ℚ × Mash) (seed : List ℕ) : ℚ × ℚ × ℚ × Mash :=
  let (s0, s1, s2, m) := acc
  let (m0, m) := m.mash seed
  let (m1, m) := m.mash seed
  let (m2, m) := m.mash seed
  let s0 := fsub s0 m0
  let s1 := fsub s1 m1
  let s2 := fsub s2 m2
  let s0 := if s0 < 0 then fadd s0 1 else s0
  let s1 := if s1 < 0 then fadd s1 1 else s1
  let s2 := if s2 < 0 then fadd s2 1 else s2
  (s0, s1, s2, m)

/-- `AleaPrng::new`: one mixer, mashed three times on `" "` (code unit
`32`), then the seed loop; the carry `c` starts at `1`. -/
def AleaPrng.new (seeds : List (List ℕ)) : AleaPrng :=
  let m := Mash.init
  let (s0, m) := m.mash [32]
  let (s1, m) := m.mash [32]
  let (s2, m) := m.mash [32]
  let (s0, s1, s2, _) := seeds.foldl seedStep (s0, s1, s2, m)
  ⟨1, s0, s1, s2⟩

/-- `AleaPrng::random`: `t = 2091639.0 * s0 + c as f64 * 2^-32`;
`c ← t as u32`; shift `s0 ← s1`, `s1 ← s2`, `s2 ← t.fract()`; return the
new `s2`. -/
def AleaPrng.random (p : AleaPrng) : ℚ × AleaPrng :=
  let t := fadd (fmul (2091639 : ℚ) p.s0) (fmul (p.c : ℚ) inv2p32)
  let s2 := ffract t
  (s2, ⟨f64toU32 t, p.s1, p.s2, s2⟩)

/-- First `n` outputs of the generator, with the final state. -/
def randN : ℕ → AleaPrng → List ℚ × AleaPrng
  | 0, p => ([], p)
  | n+1, p =>
    let (r, p) := p.random
    let (l, p) := randN n p
    (r :: l, p)

/-- UTF-16 code units of `"asdf"`. -/
def asdfUnits : List ℕ := [97, 115, 100, 102]

/-! ## `src/lib.rs`: `GameSeed` -/

inductive GameSeedParseError where
  | wrongLength
  | invalidChar (c : ℕ)

deriving DecidableEq

/-- `TryFrom<&str> for GameSeed` checks each byte against
`b'a'..=b'z' | b'0'..=b'9'`. -/
def seedByteOk (b : ℕ) : Bool := (97 ≤ b && b ≤ 122) || (48 ≤ b && b ≤ 57)

/-- First byte failing the charset check, in order (the source loop
reports the first offending byte). -/
def firstBadByte : List ℕ → Option ℕ
  | [] => none
  | b :: rest => if seedByteOk b then firstBadByte rest else some b

/-- `GameSeed`: `bytes: [u8; 6]` (modelled as a list that is always six
long, zero-padded) plus the logical length `len`. -/
structure GameSeed where
  bytes : List ℕ
  len : ℕ

deriving DecidableEq

/-- `TryFrom<&str> for GameSeed` (`src/lib.rs` lines 564-586): reject
empty or >6-byte strings, reject the first non-`[a-z0-9]` byte, else copy
the bytes into the zero-initialised 6-byte buffer and record the length.
The input string is given as its list of bytes. -/
def GameSeed.parse (s : List ℕ) : Except GameSeedParseError GameSeed :=
  if 6 < s.length || s.length = 0 then .error .wrongLength
  else
    match firstBadByte s with
    | some b => .error (.invalidChar b)
    | none => .ok ⟨s ++ List.replicate (6 - s.length) 0, s.length⟩

/-- `AsRef<str> for GameSeed` (`src/lib.rs` lines 594-598): the UTF-8
string view is built from `self.bytes.as_ref()`, i.e. from the **whole**
6-byte buffer, zero padding included. -/
def GameSeed.strView (g : GameSeed) : List ℕ := g.bytes

/-- `AsRef<[u8]> for GameSeed` (`src/lib.rs` lines 588-592): the raw byte
view is the length-bounded slice `&self.bytes[0..len]`. -/
def GameSeed.byteView (g : GameSeed) : List ℕ := g.bytes.take g.len

/-! ## `src/rng.rs`: the bag randomizer -/

inductive Piece where
  | I | J | L | O | S | T | Z

deriving DecidableEq

/-- `const FRESH_BAG: [Piece; 7] = [I, O, T, L, J, S, Z]`. -/
def FRESH_BAG : List Piece := [.I, .O, .T, .L, .J, .S, .Z]

/-- Membership in the `S | Z` slice patterns of `JstrisBag::new`. -/
def isSZ : Piece → Bool
  | .S => true
  | .Z => true
  | _ => false

/-- The draw loop of `fresh_bag` (`std::array::from_fn`): `fuel` times,
draw index `(rng.random() * bag.len() as f64).floor() as usize` and
remove that element from the shrinking pool (`ArrayVec::remove` panics on
an out-of-range index, modelled as `none`).  Returns the elements in
removal order. -/
def drawSeq : ℕ → AleaPrng → List Piece → Option (List Piece × AleaPrng)
  | 0, rng, _ => some ([], rng)
  | fuel+1, rng, pool =>
    let (r, rng') := rng.random
    let i := f64toUsize (ffloor (fmul r (pool.length : ℚ)))
    match pool.get? i with
    | none => none
    | some p =>
      (drawSeq fuel rng' (pool.eraseIdx i)).map fun lr => (p :: lr.1, lr.2)

/-- `fresh_bag` (`src/rng.rs` lines 131-140): draw all 7 pieces from
`FRESH_BAG`, then reverse the drawn array into the stored bag
(`array.into_iter().rev().collect()`). -/
def fresh_bag (rng : AleaPrng) : Option (List Piece × AleaPrng) :=
  (drawSeq 7 rng FRESH_BAG).map fun lr => (lr.1.reverse, lr.2)

/-- `JstrisBag` owns its PRNG and the current bag buffer (an `ArrayVec`;
the list below is the buffer in index order, so `pop` takes the **last**
element). -/
structure JstrisBag where
  prng : AleaPrng
  bag : List Piece

deriving DecidableEq

/-- The seam-correction match of `JstrisBag::new` (`src/rng.rs` lines
147-154), expressed on the *reversed* buffer (last element first, since
the slice patterns anchor at the tail).  With `z` the last element, `y`
the second-to-last and `x` the third-to-last:
`[.., other, S | Z, s @ (S | Z)]` swaps `z` (= `s`) with `x` (= `other`);
otherwise `[.., other, s @ (S | Z)]` swaps `z` with `y` (= `other`);
otherwise nothing changes. -/
def seamFixRev : List Piece → List Piece
  | z :: y :: x :: t =>
    if isSZ z && isSZ y then x :: y :: z :: t
    else if isSZ z then y :: z :: x :: t
    else z :: y :: x :: t
  | [z, y] => if isSZ z then [y, z] else [z, y]
  | u => u

/-- `JstrisBag::new`'s seam correction on the stored buffer. -/
def seamFix (arr : List Piece) : List Piece := (seamFixRev arr.reverse).reverse

/-- `JstrisBag::new` (`src/rng.rs` lines 142-157): seed the PRNG with the
seed's `AsRef<str>` view (the full zero-padded 6 bytes; each byte is one
UTF-16 code unit since the buffer is pure ASCII/NUL), generate the first
bag and apply the seam correction to it. -/
def JstrisBag.new (seed : GameSeed) : Option JstrisBag :=
  let prng := AleaPrng.new [seed.strView]
  (fresh_bag prng).map fun br => ⟨br.2, seamFix br.1⟩

/-- `JstrisBag::get` (`src/rng.rs` lines 159-166): pop the last element
of the bag buffer; on empty, refill with `fresh_bag` and pop from the
refill (the source recurses into `get`; a fresh bag always has 7
elements, so one refill suffices). -/
def JstrisBag.get (b : JstrisBag) : Option (Piece × JstrisBag) :=
  match b.bag.getLast? with
  | some p => some (p, ⟨b.prng, b.bag.dropLast⟩)
  | none =>
    (fresh_bag b.prng).bind fun br =>
      match br.1.getLast? with
      | some p => some (p, ⟨br.2, br.1.dropLast⟩)
      | none => none

/-- `n` successive `get` calls, collecting the dispensed pieces. -/
def getN : ℕ → JstrisBag → Option (List Piece × JstrisBag)
  | 0, b => some ([], b)
  | n+1, b =>
    b.get.bind fun pb =>
      (getN n pb.2).map fun lb => (pb.1 :: lb.1, lb.2)

deriving instance DecidableEq for Except

/-- The `GameSeed` parsed from `"asdf"`. -/
def asdfSeed : GameSeed := ⟨[97, 115, 100, 102, 0, 0], 4⟩

/-- Removal order drawn for the seed `"asdf"` (computed). -/
def asdfRemovalOrder : List Piece := [.S, .T, .O, .Z, .J, .I, .L]

/-- The `GameSeed` parsed from `"8"`. -/
def eightSeed : GameSeed := ⟨[56, 0, 0, 0, 0, 0], 1⟩

/-! ## `src/lib.rs`: events and the event codec -/

/-- The 16 input kinds (`#[repr(u8)]`, discriminants 0-15). -/
inductive Input where
  | MoveLeft | MoveRight | DasLeft | DasRight | RotateLeft | RotateRight
  | Rotate180 | HardDrop | SoftDropBeginEnd | GravityStep | HoldBlock
  | GarbageAdd | SGarbageAdd | RedBarSet | ArrMove | Aux

deriving DecidableEq

/-- The `repr(u8)` discriminant (`ev.input as u16`). -/
def Input.toRaw : Input → ℕ
  | .MoveLeft => 0
  | .MoveRight => 1
  | .DasLeft => 2
  | .DasRight => 3
  | .RotateLeft => 4
  | .RotateRight => 5
  | .Rotate180 => 6
  | .HardDrop => 7
  | .SoftDropBeginEnd => 8
  | .GravityStep => 9
  | .HoldBlock => 10
  | .GarbageAdd => 11
  | .SGarbageAdd => 12
  | .RedBarSet => 13
  | .ArrMove => 14
  | .Aux => 15

/-- `Input::from_raw`: after `assert!(raw & 0xF0 == 0)` the raw nibble is
transmuted to the variant with that discriminant; in-range arguments are
enforced by `Fin 16` here (the decode path always masks with `& 0x0F`). -/
def Input.fromRaw (i : Fin 16) : Input :=
  match i.val with
  | 0 => .MoveLeft
  | 1 => .MoveRight
  | 2 => .DasLeft
  | 3 => .DasRight
  | 4 => .RotateLeft
  | 5 => .RotateRight
  | 6 => .Rotate180
  | 7 => .HardDrop
  | 8 => .SoftDropBeginEnd
  | 9 => .GravityStep
  | 10 => .HoldBlock
  | 11 => .GarbageAdd
  | 12 => .SGarbageAdd
  | 13 => .RedBarSet
  | 14 => .ArrMove
  | _ => .Aux

/-- One packed event: `timestamp` is the `u16` payload of
`TwelveBitMillisecondTimestamp` (kept below `4096` by every checked
constructor), `input` the 4-bit input kind. -/
structure Event where
  timestamp : ℕ
  input : Input

deriving DecidableEq

/-- `From<Event> for u16`: `timestamp.millis() << 4 | input as u16`.
`u16` shift discards overflowing bits (`% 2^16`); since the input
discriminant is below 16 the bitwise-or is an addition. -/
def eventToU16 (e : Event) : ℕ := 16 * e.timestamp % 65536 + e.input.toRaw

/-- `u16::to_be_bytes`: big-endian byte pair. -/
def be2 (v : ℕ) : List ℕ := [v / 256, v % 256]

/-- `TryFrom<u16> for Event`: `delay = value >> 4` (necessarily below
4096 for a `u16`, so the inner `try_into().unwrap()` cannot panic) and
`input = Input::from_raw((value & 0x0F) as u8)`; never fails (the error
enum `EventDecodeError` is uninhabited). -/
def Event.ofU16 (v : ℕ) : Event :=
  ⟨v % 65536 / 16, Input.fromRaw ⟨v % 16, Nat.mod_lt _ (by norm_num)⟩⟩

/-- `EventList::encode` (`src/lib.rs` lines 84-99): each event as two
big-endian bytes, plus two zero padding bytes when the event count is
odd. -/
def EventList.encode (l : List Event) : List ℕ :=
  (l.flatMap fun e => be2 (eventToU16 e)) ++ (if l.length % 2 = 1 then [0, 0] else [])

inductive EventListParseError where
  | notAligned (numBytes : ℕ)

deriving DecidableEq
-- The source error enum also has an `EventDecodeError` variant wrapping
-- the *uninhabited* per-event error type, so that variant can never be
-- constructed and is omitted from the model.

/-- The `chunks(2)` / `u16::from_be_bytes` / `TryFrom<u16>` pipeline of
`TryFrom<Vec<u8>> for EventList`.  A trailing lone byte cannot occur
under the multiple-of-4 length check (the source's
`arr.try_into().unwrap()` would panic there). -/
def decodeChunks : List ℕ → List Event
  | [] => []
  | [_] => []
  | b1 :: b2 :: rest => Event.ofU16 (256 * b1 + b2) :: decodeChunks rest

/-- `TryFrom<Vec<u8>> for EventList` (`src/lib.rs` lines 110-155):
reject buffers whose length is not a multiple of 4, then decode
big-endian 16-bit groups. -/
def EventList.decode (bytes : List ℕ) : Except EventListParseError (List Event) :=
  if bytes.length % 4 ≠ 0 then .error (.notAligned bytes.length)
  else .ok (decodeChunks bytes)

/-- `EventList::iter` (`src/lib.rs` lines 66-80): the closure state is
`base` (a `Duration`, in ms) and `prev` (the previous raw timestamp);
iteration inlined as recursion. -/
def iterGo (base : ℤ) (prev : ℕ) : List Event → List (Input × ℤ)
  | [] => []
  | e :: rest =>
    let base' := if e.timestamp < prev then base + 4096 else base
    (e.input, base' + (e.timestamp : ℤ)) :: iterGo base' e.timestamp rest

/-- `EventList::iter` starts from `base = 0`, `prev = 0`. -/
def EventList.iter (l : List Event) : List (Input × ℤ) := iterGo 0 0 l

/-- Raw 12-bit timestamps of an event list. -/
def rawStamps (l : List Event) : List ℕ := l.map Event.timestamp

/-- Number of wraparounds (strict decreases of the raw timestamp, the
first element being compared against `prev`). -/
def wrapsFrom : ℕ → List ℕ → ℕ
  | _, [] => 0
  | prev, t :: rest => (if t < prev then 1 else 0) + wrapsFrom t rest

/-- The specification's description of absolute-time reconstruction: the
`i`-th event's absolute time is `4096 ms` per wraparound seen in the
first `i+1` raw timestamps (starting the comparison from `0`), plus its
own raw timestamp. -/
def iterSpec (l : List Event) : List (Input × ℤ) :=
  l.mapIdx fun i e =>
    (e.input, 4096 * (wrapsFrom 0 (rawStamps (l.take (i + 1))) : ℤ) + (e.timestamp : ℤ))

/-! ## `src/lib.rs`: `TwelveBitMillisecondTimestamp` -/

/-- `TwelveBitMillisecondTimestampConversionError<Source>`. -/
inductive TbConvErr (α : Type) where
  | tooBig (duration : α)
  | invalid (duration : α)

deriving DecidableEq

/-- `TryFrom<u16> for TwelveBitMillisecondTimestamp` (`src/lib.rs` lines
302-313): `0..=0x0FFF` is accepted, anything larger is `TooBig`. -/
def TwelveBit.tryFromU16 (value : ℕ) : Except (TbConvErr ℕ) ℕ :=
  if value ≤ 0x0FFF then .ok value else .error (.tooBig value)

/-- `TryFrom<Duration> for TwelveBitMillisecondTimestamp` (`src/lib.rs`
lines 283-294): on `val = duration.num_milliseconds()`, positive values
are accepted via the truncating cast `val as u16` (no 12-bit check!);
zero and negative values are `Invalid`. -/
def TwelveBit.tryFromDuration (ms : ℤ) : Except (TbConvErr ℤ) ℕ :=
  if 0 < ms then .ok (ms.toNat % 65536) else .error (.invalid ms)

/-! ## `src/lib.rs`: replay version decoding -/

/-- `str::split_once`: split at the first occurrence of `sep`. -/
def splitOnce (sep : Char) : List Char → Option (List Char × List Char)
  | [] => none
  | c :: rest =>
    if c = sep then some ([], rest)
    else (splitOnce sep rest).map fun ab => (c :: ab.1, ab.2)

/-- Value of an ASCII digit. -/
def digitVal (c : Char) : Option ℕ :=
  if '0' ≤ c ∧ c ≤ '9' then some (c.toNat - 48) else none

/-- Digit-accumulation loop of `u8::from_str`: fails on a non-digit or
when the accumulated value leaves `u8` range. -/
def parseU8Go : List Char → ℕ → Option ℕ
  | [], acc => some acc
  | c :: rest, acc =>
    match digitVal c with
    | none => none
    | some d => if 255 < 10 * acc + d then none else parseU8Go rest (10 * acc + d)

/-- `str::parse::<u8>`: optional leading `+`, then one or more decimal
digits, value at most 255. -/
def parseU8 (s : List Char) : Option ℕ :=
  let s := match s with
    | '+' :: rest => rest
    | _ => s
  match s with
  | [] => none
  | _ => parseU8Go s 0

/-- `Deserialize for ExpectedJstrisReplayVersion<MAJ, MIN>` (`src/lib.rs`
lines 423-454), from the wire number's decimal rendering: split on the
decimal point (a missing fractional part becomes `"0"`), parse both
sides as `u8`, fail when the major differs from `MAJ` or the minor is
below `MIN`; on success the actual minor is retained. -/
def ExpectedJstrisReplayVersion.decode (MAJ MININT : ℕ) (ver : List Char) : Option ℕ :=
  let p := match splitOnce '.' ver with
    | some mm => mm
    | none => (ver, ['0'])
  match parseU8 p.1, parseU8 p.2 with
  | some maj, some minor =>
    if maj ≠ MAJ then none
    else if ¬ (MININT ≤ minor) then none
    else some minor
  | _, _ => none

/-- Decimal rendering of a small natural (enough for `u8` values), used
to quantify over all wire version numbers `a.b`. -/
def natChars (n : ℕ) : List Char :=
  if n < 10 then [Char.ofNat (48 + n)]
  else if n < 100 then [Char.ofNat (48 + n / 10), Char.ofNat (48 + n % 10)]
  else [Char.ofNat (48 + n / 100), Char.ofNat (48 + n / 10 % 10), Char.ofNat (48 + n % 10)]

def Repr53 (q : ℚ) : Prop := ∃ (n : ℤ) (k : ℤ), q = (n : ℚ) * 2 ^ k ∧ n.natAbs < 2 ^ 53

def Dyadic (q : ℚ) : Prop := ∃ (n : ℤ) (k : ℤ), q = (n : ℚ) * 2 ^ k

/-- The three PRNG state fractions are always binary64 values in `[0,1)`. -/
def Valid01 (q : ℚ) : Prop := Repr53 q ∧ 0 ≤ q ∧ q < 1

/-- Invariant of `AleaPrng`: the fractions are binary64 values in `[0,1)`
and the carry is a `u32`. -/
def AleaInv (p : AleaPrng) : Prop :=
  Valid01 p.s0 ∧ Valid01 p.s1 ∧ Valid01 p.s2 ∧ p.c < 2 ^ 32

/-- A value of the form `a / 2^32` with `a : u32`: what `Mash::mash`
returns and what the seed fractions remain during construction. -/
def SeedFrac (q : ℚ) : Prop := ∃ a : ℕ, a < 2 ^ 32 ∧ q = (a : ℚ) / 2 ^ 32

/-- Invariant of the seed-loop accumulator of `AleaPrng::new`. -/
def SeedInv (x : ℚ × ℚ × ℚ × Mash) : Prop :=
  SeedFrac x.1 ∧ SeedFrac x.2.1 ∧ SeedFrac x.2.2.1 ∧ x.2.2.2.state < 2 ^ 32

/-- The PRNG a `JstrisBag` for the seed `"asdf"` is built on. -/
def asdfPrng : AleaPrng := AleaPrng.new [GameSeed.strView asdfSeed]

/-- C1: a generator seeded with `["asdf"]` yields, for its first five
calls, exactly the binary64 values denoted by the decimal literals
`0.8024188503623009`, `0.4725297694094479`, `0.949664750834927`,
`0.5619115477893502`, `0.6947485841810703`; as exact rationals these are
`107698835/2^27`, `1014749953/2^31`, `4078779047/2^32`, `2413391721/2^32`
and `186495153/2^28`. -/
theorem alea_asdf_first_five :
    (randN 5 (AleaPrng.new [asdfUnits])).1 =
      [Rat.divInt 107698835 (2 ^ 27),
       Rat.divInt 1014749953 (2 ^ 31),
       Rat.divInt 4078779047 (2 ^ 32),
       Rat.divInt 2413391721 (2 ^ 32),
       Rat.divInt 186495153 (2 ^ 28)] := by
  decide

/-- Closed form of the timestamp walk: from state `(base, prev)`, the
`i`-th result adds `4096` per wraparound seen so far to `base`. -/
theorem iterGo_closed (l : List Event) : ∀ (base : ℤ) (prev : ℕ),
    iterGo base prev l = l.mapIdx (fun i e =>
      (e.input, base + 4096 * (wrapsFrom prev (rawStamps (l.take (i + 1))) : ℤ)
        + (e.timestamp : ℤ))) := by
  induction l with
  | nil => intro base prev; rfl
  | cons e rest ih =>
    intro base prev
    simp only [iterGo, List.mapIdx_cons, List.take_succ_cons, rawStamps, List.map_cons,
      wrapsFrom, List.take_zero, List.map_nil, List.cons.injEq, Prod.mk.injEq]
    refine ⟨⟨trivial, ?_⟩, ?_⟩
    · by_cases h : e.timestamp < prev <;> simp [h]
    · rw [ih]
      congr 1
      funext i e2
      by_cases h : e.timestamp < prev <;> simp [h, rawStamps] <;> push_cast <;> ring

/-- C2: the absolute-time walk of `EventList::iter` starts from
`base = 0`, `prev = 0` and adds exactly `4096` ms to the base at every
strict decrease of the raw 12-bit timestamp, yielding `base + raw` per
event — equivalently, each event's absolute time is `4096` times the
number of wraparounds seen up to it plus its raw timestamp; on raw
values `[4000, 4090, 50, 4080]` this reconstructs
`[4000, 4090, 4146, 8176]` ms. -/
theorem eventlist_iter_absolute_times :
    (∀ l : List Event, EventList.iter l = iterSpec l) ∧
    EventList.iter
        [⟨4000, .MoveLeft⟩, ⟨4090, .MoveLeft⟩, ⟨50, .MoveLeft⟩, ⟨4080, .MoveLeft⟩] =
      [(.MoveLeft, 4000), (.MoveLeft, 4090), (.MoveLeft, 4146), (.MoveLeft, 8176)] := by
  constructor
  · intro l
    show iterGo 0 0 l = iterSpec l
    rw [iterGo_closed]
    unfold iterSpec
    congr 1
    funext i e
    rw [zero_add]
  · decide

/-- C5 (code bug): parsing the valid one-byte seed `"a"` succeeds, but
the `AsRef<str>` string view renders the whole zero-padded 6-byte buffer
`"a\x00\x00\x00\x00\x00"`, not the original string; the neighbouring
`AsRef<[u8]>` byte view does slice to the logical length. -/
theorem gameseed_strview_padded :
    GameSeed.parse [97] = .ok ⟨[97, 0, 0, 0, 0, 0], 1⟩ ∧
    GameSeed.strView ⟨[97, 0, 0, 0, 0, 0], 1⟩ = [97, 0, 0, 0, 0, 0] ∧
    GameSeed.strView ⟨[97, 0, 0, 0, 0, 0], 1⟩ ≠ [97] ∧
    GameSeed.byteView ⟨[97, 0, 0, 0, 0, 0], 1⟩ = [97] := by
  refine ⟨by decide, rfl, by decide, by decide⟩

/-- C6 (code bug): `TryFrom<u16>` does reject everything above `0x0FFF`
with `TooBig`, and `TryFrom<Duration>` does reject non-positive
durations as `Invalid` — but a 4096 ms duration is *accepted* through
the truncating `as u16` cast, producing a stored value of 4096 ≥ 4096
(and a 65541 ms duration even wraps to 5 ms). -/
theorem twelvebit_duration_accepts_4096 :
    (∀ v : ℕ, TwelveBit.tryFromU16 v =
      if v ≤ 4095 then .ok v else .error (.tooBig v)) ∧
    TwelveBit.tryFromDuration (-5) = .error (.invalid (-5)) ∧
    TwelveBit.tryFromDuration 0 = .error (.invalid 0) ∧
    TwelveBit.tryFromDuration 4096 = .ok 4096 ∧
    TwelveBit.tryFromDuration 65541 = .ok 5 := by
  exact ⟨fun v => rfl, by decide, by decide, by decide, by decide⟩

theorem Input.toRaw_lt (i : Input) : i.toRaw < 16 := by cases i <;> decide

theorem Input.fromRaw_toRaw (i : Input) (h : i.toRaw < 16) :
    Input.fromRaw ⟨i.toRaw, h⟩ = i := by cases i <;> rfl

/-- Packing an event into 16 bits and unpacking recovers it, provided the
timestamp honours the 12-bit invariant. -/
theorem Event.ofU16_eventToU16 (e : Event) (h : e.timestamp < 4096) :
    Event.ofU16 (eventToU16 e) = e := by
  have hraw := Input.toRaw_lt e.input
  unfold eventToU16 Event.ofU16
  rw [Nat.mod_eq_of_lt (show 16 * e.timestamp < 65536 by omega)]
  have h1 : (16 * e.timestamp + e.input.toRaw) % 65536 = 16 * e.timestamp + e.input.toRaw :=
    Nat.mod_eq_of_lt (by omega)
  have h2 : (16 * e.timestamp + e.input.toRaw) / 16 = e.timestamp := by omega
  have h3 : (16 * e.timestamp + e.input.toRaw) % 16 = e.input.toRaw := by omega
  rw [h1]
  cases e with
  | mk ts i =>
    simp only [Event.mk.injEq]
    refine ⟨h2, ?_⟩
    have : (⟨(16 * ts + Input.toRaw i) % 16, Nat.mod_lt _ (by norm_num)⟩ : Fin 16)
        = ⟨i.toRaw, hraw⟩ := Fin.ext h3
    rw [this, Input.fromRaw_toRaw]

theorem flatMap_be2_length (l : List Event) :
    (l.flatMap fun e => be2 (eventToU16 e)).length = 2 * l.length := by
  induction l with
  | nil => rfl
  | cons e rest ih =>
    rw [List.flatMap_cons, List.length_append, ih, List.length_cons]
    simp only [be2, List.length_cons, List.length_nil]
    omega

/-- Decoding the byte encoding of a well-formed event list, followed by
any suffix, recovers the list and decodes the suffix. -/
theorem decodeChunks_append (l : List Event) (h : ∀ e ∈ l, e.timestamp < 4096)
    (suffix : List ℕ) :
    decodeChunks ((l.flatMap fun e => be2 (eventToU16 e)) ++ suffix)
      = l ++ decodeChunks suffix := by
  induction l with
  | nil => rfl
  | cons e rest ih =>
    rw [List.flatMap_cons, List.append_assoc]
    show decodeChunks (eventToU16 e / 256 :: eventToU16 e % 256 :: _) = _
    rw [decodeChunks]
    rw [Nat.div_add_mod (eventToU16 e) 256]
    rw [Event.ofU16_eventToU16 e (h e (by simp))]
    show e :: decodeChunks ((rest.flatMap fun e2 => be2 (eventToU16 e2)) ++ suffix) = _
    rw [ih (fun e2 he2 => h e2 (by simp [he2]))]
    rfl

/-- C7: decoding the encoding of an event list returns it unchanged when
the event count is even; when odd, the encoding carries exactly two zero
padding bytes and decoding returns the original list plus one synthetic
event with timestamp `0` and input tag `0` (`MoveLeft`). -/
theorem eventlist_decode_encode :
    ∀ l : List Event, (∀ e ∈ l, e.timestamp < 4096) →
      EventList.encode l
          = (l.flatMap fun e => be2 (eventToU16 e))
            ++ (if l.length % 2 = 1 then [0, 0] else []) ∧
      EventList.decode (EventList.encode l)
          = .ok (if l.length % 2 = 0 then l else l ++ [⟨0, .MoveLeft⟩]) := by
  intro l h
  refine ⟨rfl, ?_⟩
  unfold EventList.decode EventList.encode
  have hlen := flatMap_be2_length l
  by_cases hpar : l.length % 2 = 1
  · rw [if_pos hpar]
    have hmod : ((l.flatMap fun e => be2 (eventToU16 e)) ++ [0, 0]).length % 4 = 0 := by
      rw [List.length_append, hlen]; simp; omega
    rw [if_neg (not_not_intro hmod)]
    rw [decodeChunks_append l h [0, 0]]
    rw [if_neg (by omega)]
    rfl
  · rw [if_neg hpar, List.append_nil]
    have hmod : (l.flatMap fun e => be2 (eventToU16 e)).length % 4 = 0 := by
      rw [hlen]; omega
    rw [if_neg (not_not_intro hmod)]
    rw [if_pos (by omega)]
    have h0 := decodeChunks_append l h []
    rw [List.append_nil] at h0
    rw [h0, show decodeChunks ([] : List ℕ) = [] from rfl, List.append_nil]

/-- Witness for C7 at the one-event list `[(5, HardDrop)]` (odd count). -/
theorem eventlist_decode_encode_witness :
    (∀ e ∈ [(⟨5, .HardDrop⟩ : Event)], e.timestamp < 4096) ∧
    EventList.decode (EventList.encode [(⟨5, .HardDrop⟩ : Event)])
      = .ok (if ([(⟨5, .HardDrop⟩ : Event)].length) % 2 = 0
             then [(⟨5, .HardDrop⟩ : Event)]
             else [(⟨5, .HardDrop⟩ : Event)] ++ [⟨0, .MoveLeft⟩]) :=
  ⟨by decide, (eventlist_decode_encode [⟨5, .HardDrop⟩] (by decide)).2⟩

theorem splitOnce_append (A B : List Char) (hA : '.' ∉ A) :
    splitOnce '.' (A ++ '.' :: B) = some (A, B) := by
  induction A with
  | nil => simp [splitOnce]
  | cons c rest ih =>
    have hc : ¬(c = '.') := fun h => hA (by simp [h])
    simp only [List.cons_append, splitOnce, if_neg hc, List.append_eq,
      ih (fun h => hA (List.mem_cons_of_mem _ h))]
    rfl

theorem splitOnce_eq_none (A : List Char) (hA : '.' ∉ A) :
    splitOnce '.' A = none := by
  induction A with
  | nil => rfl
  | cons c rest ih =>
    have hc : ¬(c = '.') := fun h => hA (by simp [h])
    simp only [splitOnce, if_neg hc, ih (fun h => hA (List.mem_cons_of_mem _ h))]
    rfl

theorem parseU8_natChars : ∀ a : Fin 256, parseU8 (natChars a.val) = some a.val := by
  decide

theorem natChars_no_dot : ∀ a : Fin 256, '.' ∉ natChars a.val := by
  decide

/-- C9: decoding a wire version `a.b` (or a bare `a`, whose missing
fractional part counts as minor `0`) against expected major `3` and a
configured minimum minor fails exactly when the major is not `3` or the
minor is below the minimum; in particular `3.3` validates with minimum
`0`, `2.9` fails, and `3.0` (rendered `"3"`) fails with minimum `3` but
succeeds with minimum `0`. -/
theorem version_decode_spec :
    (∀ a b : Fin 256, ∀ minMinor : ℕ,
      ExpectedJstrisReplayVersion.decode 3 minMinor (natChars a.val ++ '.' :: natChars b.val)
        = if a.val = 3 ∧ minMinor ≤ b.val then some b.val else none) ∧
    (∀ a : Fin 256, ∀ minMinor : ℕ,
      ExpectedJstrisReplayVersion.decode 3 minMinor (natChars a.val)
        = if a.val = 3 ∧ minMinor ≤ 0 then some 0 else none) ∧
    ExpectedJstrisReplayVersion.decode 3 0 ['3', '.', '3'] = some 3 ∧
    ExpectedJstrisReplayVersion.decode 3 0 ['2', '.', '9'] = none ∧
    ExpectedJstrisReplayVersion.decode 3 3 ['3'] = none ∧
    ExpectedJstrisReplayVersion.decode 3 0 ['3'] = some 0 := by
  refine ⟨?_, ?_, by decide, by decide, by decide, by decide⟩
  · intro a b minMinor
    unfold ExpectedJstrisReplayVersion.decode
    rw [splitOnce_append _ _ (natChars_no_dot a)]
    simp only [parseU8_natChars]
    by_cases h1 : a.val = 3 <;> by_cases h2 : minMinor ≤ b.val <;> simp [h1, h2]
  · intro a minMinor
    unfold ExpectedJstrisReplayVersion.decode
    rw [splitOnce_eq_none _ (natChars_no_dot a)]
    simp only [parseU8_natChars]
    have h0 : parseU8 ['0'] = some 0 := rfl
    simp only [h0]
    by_cases h1 : a.val = 3 <;> by_cases h2 : minMinor ≤ 0 <;> simp [h1, h2]

theorem bitsAux_le_iff : ∀ fuel n, n < 2 ^ fuel → ∀ k, (bitsAux fuel n ≤ k ↔ n < 2 ^ k) := by
  intro fuel
  induction fuel with
  | zero =>
    intro n hn k
    interval_cases n
    simpa [bitsAux] using Nat.pos_pow_of_pos k (by norm_num)
  | succ f ih =>
    intro n hn k
    by_cases h0 : n = 0
    · subst h0
      simpa [bitsAux] using Nat.pos_pow_of_pos k (by norm_num)
    · rw [show bitsAux (f+1) n = bitsAux f (n / 2) + 1 from by simp [bitsAux, h0]]
      match k with
      | 0 =>
        simp only [Nat.succ_le_iff, pow_zero]
        constructor
        · omega
        · intro h; omega
      | k+1 =>
        rw [Nat.add_le_add_iff_right]
        rw [ih (n / 2) (by omega) k]
        rw [pow_succ]
        omega

theorem bitlen_le_iff {n k : ℕ} : bitlen n ≤ k ↔ n < 2 ^ k :=
  bitsAux_le_iff n n (Nat.lt_two_pow n) k

theorem lt_two_pow_bitlen (n : ℕ) : n < 2 ^ bitlen n := bitlen_le_iff.mp le_rfl

theorem two_pow_bitlen_le {n : ℕ} (h : n ≠ 0) : 2 ^ (bitlen n - 1) ≤ n := by
  by_contra hc
  push_neg at hc
  have := bitlen_le_iff.mpr hc
  have h1 : 1 ≤ bitlen n := by
    rcases Nat.eq_zero_or_pos (bitlen n) with h2 | h2
    · exfalso
      have := bitlen_le_iff.mp h2.le
      omega
    · omega
  omega

theorem bitlen_mul_two_pow {n : ℕ} (hn : n ≠ 0) (t : ℕ) :
    bitlen (n * 2 ^ t) = bitlen n + t := by
  apply le_antisymm
  · rw [bitlen_le_iff, pow_add]
    exact Nat.mul_lt_mul_of_lt_of_le (lt_two_pow_bitlen n) le_rfl (by positivity)
  · by_contra hc
    push_neg at hc
    have hb1 : 1 ≤ bitlen n := by
      by_contra h0
      push_neg at h0
      have := bitlen_le_iff.mp (show bitlen n ≤ 0 by omega)
      omega
    have hc2 : bitlen (n * 2 ^ t) ≤ bitlen n + t - 1 := by omega
    have hup := bitlen_le_iff.mp hc2
    have hlow : 2 ^ (bitlen n - 1 + t) ≤ n * 2 ^ t := by
      rw [pow_add]
      exact Nat.mul_le_mul_right _ (two_pow_bitlen_le hn)
    rw [show bitlen n - 1 + t = bitlen n + t - 1 by omega] at hlow
    omega

theorem round53_eq_self {N : ℕ} (h : ∃ c t, c < 2 ^ 53 ∧ N = c * 2 ^ t) :
    round53 N = N := by
  obtain ⟨c, t, hc, rfl⟩ := h
  unfold round53
  split
  · rfl
  · next hbig =>
    have hc0 : c ≠ 0 := by
      rintro rfl
      simp [bitlen, bitsAux] at hbig
    have hbl : bitlen (c * 2 ^ t) = bitlen c + t := bitlen_mul_two_pow hc0 t
    have hble : bitlen c ≤ 53 := bitlen_le_iff.mpr hc
    have hsh : bitlen (c * 2 ^ t) - 53 ≤ t := by omega
    have hdvd : 2 ^ (bitlen (c * 2 ^ t) - 53) ∣ c * 2 ^ t :=
      Dvd.dvd.mul_left (pow_dvd_pow 2 hsh) c
    have hr : c * 2 ^ t % 2 ^ (bitlen (c * 2 ^ t) - 53) = 0 :=
      Nat.mod_eq_zero_of_dvd hdvd
    rw [hr]
    rw [if_neg (Nat.not_lt_zero _)]
    rw [if_pos (Nat.pos_pow_of_pos _ (by norm_num))]
    rw [Nat.add_zero]
    exact Nat.div_mul_cancel hdvd

/-- Abstract error bound for one rounding step: with grid `P = 2 * H`,
remainder `R < P` and `H * K` below the rounded value, rounding moves the
value by at most its `1/K`-th. -/
theorem round53_err_core (K P H D R up : ℕ) (hP : P = 2 * H) (hRP : R < P)
    (hlow : H * K ≤ P * D + R)
    (herr : (up = 0 ∧ R ≤ H) ∨ (up = 1 ∧ H ≤ R)) :
    K * ((D + up) * P) ≤ K * (P * D + R) + (P * D + R) ∧
    K * (P * D + R) ≤ K * ((D + up) * P) + (P * D + R) := by
  rcases herr with ⟨rfl, hRH⟩ | ⟨rfl, hRH⟩
  · constructor
    · nlinarith
    · nlinarith
  · constructor
    · nlinarith
    · nlinarith

theorem round53_err (N : ℕ) :
    2 ^ 53 * round53 N ≤ 2 ^ 53 * N + N ∧ 2 ^ 53 * N ≤ 2 ^ 53 * round53 N + N := by
  unfold round53
  split
  · omega
  · next hbig =>
    have hN0 : N ≠ 0 := by
      rintro rfl
      simp [bitlen, bitsAux] at hbig
    set sh := bitlen N - 53 with hsh
    have hsh1 : 1 ≤ sh := by omega
    have hhalf : 2 ^ sh = 2 * 2 ^ (sh - 1) := by
      rw [← pow_succ']
      congr 1
      omega
    have hdm : 2 ^ sh * (N / 2 ^ sh) + N % 2 ^ sh = N := Nat.div_add_mod N (2 ^ sh)
    have hmlt : N % 2 ^ sh < 2 ^ sh := Nat.mod_lt _ (by positivity)
    have hlow : 2 ^ (sh - 1) * 2 ^ 53 ≤ 2 ^ sh * (N / 2 ^ sh) + N % 2 ^ sh := by
      rw [hdm, ← pow_add, show sh - 1 + 53 = bitlen N - 1 by omega]
      exact two_pow_bitlen_le hN0
    split
    · next hup =>
      have := round53_err_core (2 ^ 53) (2 ^ sh) (2 ^ (sh - 1)) (N / 2 ^ sh) (N % 2 ^ sh) 1
        hhalf hmlt hlow (Or.inr ⟨rfl, hup.le⟩)
      rwa [hdm] at this
    · split
      · next hup2 =>
        have := round53_err_core (2 ^ 53) (2 ^ sh) (2 ^ (sh - 1)) (N / 2 ^ sh) (N % 2 ^ sh) 0
          hhalf hmlt hlow (Or.inl ⟨rfl, hup2.le⟩)
        rwa [hdm] at this
      · next hup1 hup2 =>
        have htie : 2 ^ (sh - 1) ≤ N % 2 ^ sh := by omega
        rcases Nat.mod_two_eq_zero_or_one (N / 2 ^ sh) with hpar | hpar <;> rw [hpar]
        · have := round53_err_core (2 ^ 53) (2 ^ sh) (2 ^ (sh - 1)) (N / 2 ^ sh) (N % 2 ^ sh) 0
            hhalf hmlt hlow (Or.inl ⟨rfl, by omega⟩)
          rwa [hdm] at this
        · have := round53_err_core (2 ^ 53) (2 ^ sh) (2 ^ (sh - 1)) (N / 2 ^ sh) (N % 2 ^ sh) 1
            hhalf hmlt hlow (Or.inr ⟨rfl, htie⟩)
          rwa [hdm] at this

theorem round53_shape (N : ℕ) : ∃ c t, c < 2 ^ 53 ∧ round53 N = c * 2 ^ t := by
  unfold round53
  split
  · next h => exact ⟨N, 0, bitlen_le_iff.mp h, (mul_one N).symm⟩
  · next hbig =>
    set sh := bitlen N - 53 with hsh
    set u := (if 2 ^ (sh - 1) < N % 2 ^ sh then 1
       else if N % 2 ^ sh < 2 ^ (sh - 1) then 0
       else N / 2 ^ sh % 2) with hu
    have hu1 : u ≤ 1 := by
      rw [hu]
      split
      · exact le_rfl
      · split
        · omega
        · exact Nat.le_of_lt_succ (Nat.mod_lt _ (by norm_num))
    have hq2 : N / 2 ^ sh < 2 ^ 53 := by
      rw [Nat.div_lt_iff_lt_mul (by positivity)]
      calc N < 2 ^ bitlen N := lt_two_pow_bitlen N
        _ = 2 ^ (53 + sh) := by congr 1; omega
        _ = 2 ^ 53 * 2 ^ sh := by rw [pow_add]
    rcases Nat.lt_or_ge (N / 2 ^ sh + u) (2 ^ 53) with hM | hM
    · exact ⟨N / 2 ^ sh + u, sh, hM, rfl⟩
    · have hMeq : N / 2 ^ sh + u = 2 ^ 53 := by omega
      refine ⟨2 ^ 52, sh + 1, by norm_num, ?_⟩
      rw [hMeq, pow_succ]
      ring

theorem roundPos_eq_div (q : ℚ) :
    roundPos q = (round53 q.num.toNat : ℚ) / (q.den : ℚ) := by
  rw [roundPos, Rat.divInt_eq_div]
  push_cast
  ring

theorem roundPos_nonneg (q : ℚ) : 0 ≤ roundPos q := by
  rw [roundPos_eq_div]
  positivity

theorem q_eq_toNat_div_den {q : ℚ} (h : 0 ≤ q) :
    q = (q.num.toNat : ℚ) / (q.den : ℚ) := by
  have h1 : ((q.num.toNat : ℤ) : ℚ) = (q.num : ℚ) := by
    rw [Int.toNat_of_nonneg (Rat.num_nonneg.mpr h)]
  push_cast at h1
  rw [h1, Rat.num_div_den]

theorem repr53_num {q : ℚ} (h : Repr53 q) (hq : 0 ≤ q) :
    ∃ c t, c < 2 ^ 53 ∧ q.num.toNat = c * 2 ^ t := by
  obtain ⟨n, k, hqe, hn⟩ := h
  rcases eq_or_lt_of_le hq with hq0 | hq0
  · refine ⟨0, 0, by norm_num, ?_⟩
    rw [← hq0]
    rfl
  · have hn0 : n ≠ 0 := by
      rintro rfl
      rw [Int.cast_zero, zero_mul] at hqe
      exact absurd hqe hq0.ne'
    have hnpos : 0 < n := by
      by_contra hc
      push_neg at hc
      have hcast : ((n : ℚ)) ≤ 0 := Int.cast_nonpos.mpr hc
      have hle : (n : ℚ) * 2 ^ k ≤ 0 := mul_nonpos_of_nonpos_of_nonneg hcast (by positivity)
      rw [← hqe] at hle
      linarith
    rcases le_or_lt 0 k with hk | hk
    · lift k to ℕ using hk with t
      refine ⟨n.toNat, t, by omega, ?_⟩
      have : q = ((n * 2 ^ t : ℤ) : ℚ) := by
        rw [hqe]
        push_cast
        rw [zpow_natCast]
      rw [this, Rat.num_intCast]
      have h1 : (((n * 2 ^ t).toNat : ℤ)) = n * 2 ^ t :=
        Int.toNat_of_nonneg (by positivity)
      have h2 : ((n.toNat * 2 ^ t : ℕ) : ℤ) = n * 2 ^ t := by
        push_cast
        rw [Int.toNat_of_nonneg hnpos.le]
      have := h1.trans h2.symm
      exact_mod_cast this
    · set m := (-k).toNat with hm
      have hkm : k = -(m : ℤ) := by omega
      have hq2 : q = Rat.divInt n (2 ^ m) := by
        rw [Rat.divInt_eq_div, hqe, hkm]
        rw [zpow_neg, zpow_natCast]
        push_cast
        ring
      have hdvd : q.num ∣ n := by
        rw [hq2]
        exact Rat.num_dvd n (by positivity)
      have habs : q.num.natAbs ≤ n.natAbs := Nat.le_of_dvd (by omega) (Int.natAbs_dvd_natAbs.mpr hdvd)
      refine ⟨q.num.toNat, 0, by omega, by omega⟩

theorem den_pow2 {q : ℚ} (h : Dyadic q) : ∃ j, q.den = 2 ^ j := by
  obtain ⟨n, k, hqe⟩ := h
  rcases le_or_lt 0 k with hk | hk
  · lift k to ℕ using hk with t
    have : q = ((n * 2 ^ t : ℤ) : ℚ) := by
      rw [hqe]
      push_cast
      rw [zpow_natCast]
    refine ⟨0, ?_⟩
    rw [this, Rat.den_intCast, pow_zero]
  · set m := (-k).toNat with hm
    have hkm : k = -(m : ℤ) := by omega
    have hq2 : q = Rat.divInt n (2 ^ m) := by
      rw [Rat.divInt_eq_div, hqe, hkm]
      rw [zpow_neg, zpow_natCast]
      push_cast
      ring
    have hdvd : (q.den : ℤ) ∣ 2 ^ m := by
      rw [hq2]
      exact Rat.den_dvd n (2 ^ m)
    have hdvd2 : q.den ∣ 2 ^ m := by
      have := Int.natAbs_dvd_natAbs.mpr hdvd
      simpa [Int.natAbs_pow] using this
    obtain ⟨j, _, hj⟩ := (Nat.dvd_prime_pow Nat.prime_two).mp hdvd2
    exact ⟨j, hj⟩

theorem roundPos_eq_self {q : ℚ} (h : Repr53 q) (hq : 0 ≤ q) : roundPos q = q := by
  rw [roundPos]
  rw [round53_eq_self (repr53_num h hq)]
  rw [show ((q.num.toNat : ℤ)) = q.num from Int.toNat_of_nonneg (Rat.num_nonneg.mpr hq)]
  exact Rat.num_divInt_den q

theorem roundPos_err {q : ℚ} (hq : 0 ≤ q) : |roundPos q - q| ≤ q / 2 ^ 53 := by
  obtain ⟨h1, h2⟩ := round53_err q.num.toNat
  have hden : (0:ℚ) < (q.den : ℚ) := by
    have := q.den_pos
    positivity
  rw [roundPos_eq_div]
  set N := q.num.toNat with hN
  set R := round53 N with hR
  set d : ℚ := (q.den : ℚ) with hd
  have hqd : q = (N : ℚ) / d := q_eq_toNat_div_den hq
  have key : |(R:ℚ) - (N:ℚ)| ≤ (N:ℚ) / 2 ^ 53 := by
    rw [abs_sub_le_iff]
    constructor
    · rw [sub_le_iff_le_add, div_add' _ _ _ (by positivity), le_div_iff (by positivity)]
      have hc : ((2:ℚ) ^ 53 * (R:ℚ)) ≤ 2 ^ 53 * (N : ℚ) + (N : ℚ) := by exact_mod_cast h1
      linarith
    · rw [sub_le_iff_le_add, div_add' _ _ _ (by positivity), le_div_iff (by positivity)]
      have hc : ((2:ℚ) ^ 53 * (N:ℚ)) ≤ 2 ^ 53 * (R : ℚ) + (N : ℚ) := by exact_mod_cast h2
      linarith
  have step1 : |(R:ℚ) / d - q| = |(R:ℚ) - (N:ℚ)| / d := by
    rw [hqd, div_sub_div_same, abs_div, abs_of_pos hden]
  rw [step1]
  calc |(R:ℚ) - (N:ℚ)| / d ≤ ((N:ℚ) / 2 ^ 53) / d := (div_le_div_right hden).mpr key
    _ = q / 2 ^ 53 := by rw [div_right_comm, ← hqd]

theorem roundPos_repr {q : ℚ} (hq : 0 ≤ q) (hd : Dyadic q) : Repr53 (roundPos q) := by
  obtain ⟨j, hj⟩ := den_pow2 hd
  obtain ⟨c, t, hc, hr⟩ := round53_shape q.num.toNat
  refine ⟨(c : ℤ), (t : ℤ) - (j : ℤ), ?_, by simpa using hc⟩
  rw [roundPos_eq_div, hr, hj]
  push_cast
  rw [zpow_sub₀ (two_ne_zero), zpow_natCast, zpow_natCast]
  ring

theorem repr53_neg {q : ℚ} (h : Repr53 q) : Repr53 (-q) := by
  obtain ⟨n, k, hq, hn⟩ := h
  exact ⟨-n, k, by rw [hq]; push_cast; ring, by simpa using hn⟩

theorem repr53_dyadic {q : ℚ} (h : Repr53 q) : Dyadic q := by
  obtain ⟨n, k, hq, _⟩ := h
  exact ⟨n, k, hq⟩

theorem dyadic_intCast (n : ℤ) : Dyadic (n : ℚ) := ⟨n, 0, by simp⟩

theorem dyadic_natCast (n : ℕ) : Dyadic (n : ℚ) := ⟨(n : ℤ), 0, by push_cast; simp⟩

theorem dyadic_add {a b : ℚ} (ha : Dyadic a) (hb : Dyadic b) : Dyadic (a + b) := by
  obtain ⟨n1, k1, h1⟩ := ha
  obtain ⟨n2, k2, h2⟩ := hb
  have key : ∀ (m1 m2 : ℤ) (j1 j2 : ℤ), j1 ≤ j2 →
      Dyadic ((m1 : ℚ) * 2 ^ j1 + (m2 : ℚ) * 2 ^ j2) := by
    intro m1 m2 j1 j2 hj
    refine ⟨m1 + m2 * 2 ^ (j2 - j1).toNat, j1, ?_⟩
    have hsplit : ((2:ℚ)) ^ j2 = 2 ^ ((j2 - j1).toNat : ℕ) * 2 ^ j1 := by
      rw [← zpow_natCast (2:ℚ) (j2 - j1).toNat]
      rw [← zpow_add₀ (two_ne_zero : (2:ℚ) ≠ 0)]
      congr 1
      omega
    rw [hsplit]
    push_cast
    ring
  rcases le_total k1 k2 with h | h
  · rw [h1, h2]
    exact key n1 n2 k1 k2 h
  · rw [h1, h2, add_comm]
    exact key n2 n1 k2 k1 h

theorem dyadic_mul {a b : ℚ} (ha : Dyadic a) (hb : Dyadic b) : Dyadic (a * b) := by
  obtain ⟨n1, k1, h1⟩ := ha
  obtain ⟨n2, k2, h2⟩ := hb
  refine ⟨n1 * n2, k1 + k2, ?_⟩
  rw [h1, h2, zpow_add₀ (two_ne_zero : (2:ℚ) ≠ 0)]
  push_cast
  ring

theorem dyadic_neg {a : ℚ} (ha : Dyadic a) : Dyadic (-a) := by
  obtain ⟨n, k, h⟩ := ha
  exact ⟨-n, k, by rw [h]; push_cast; ring⟩

theorem dyadic_sub {a b : ℚ} (ha : Dyadic a) (hb : Dyadic b) : Dyadic (a - b) := by
  rw [sub_eq_add_neg]
  exact dyadic_add ha (dyadic_neg hb)

theorem fround_of_nonneg {q : ℚ} (h : 0 ≤ q) : fround q = roundPos q := by
  rw [fround, if_neg (not_lt.mpr h)]

theorem fround_nonneg {q : ℚ} (h : 0 ≤ q) : 0 ≤ fround q := by
  rw [fround_of_nonneg h]
  exact roundPos_nonneg q

theorem fround_eq_self {q : ℚ} (h : Repr53 q) : fround q = q := by
  rcases lt_or_le q 0 with hq | hq
  · rw [fround, if_pos hq, roundPos_eq_self (repr53_neg h) (by linarith), neg_neg]
  · rw [fround_of_nonneg hq, roundPos_eq_self h hq]

theorem fround_err {q : ℚ} (h : 0 ≤ q) : |fround q - q| ≤ q / 2 ^ 53 := by
  rw [fround_of_nonneg h]
  exact roundPos_err h

theorem fround_repr {q : ℚ} (h : 0 ≤ q) (hd : Dyadic q) : Repr53 (fround q) := by
  rw [fround_of_nonneg h]
  exact roundPos_repr h hd

theorem fround_le {q : ℚ} (h : 0 ≤ q) : fround q ≤ q + q / 2 ^ 53 := by
  have := fround_err h
  rw [abs_sub_le_iff] at this
  linarith [this.1]

theorem fround_ge {q : ℚ} (h : 0 ≤ q) : q - q / 2 ^ 53 ≤ fround q := by
  have := fround_err h
  rw [abs_sub_le_iff] at this
  linarith [this.2]

theorem repr53_nat_div_pow {a m : ℕ} (h : a < 2 ^ 53) :
    Repr53 ((a : ℚ) / 2 ^ m) := by
  refine ⟨(a : ℤ), -(m : ℤ), ?_, by simpa using h⟩
  rw [zpow_neg, zpow_natCast]
  push_cast
  ring

theorem valid01_frac {a : ℕ} (h : a < 2 ^ 32) : Valid01 ((a : ℚ) / 2 ^ 32) := by
  refine ⟨repr53_nat_div_pow (by omega), by positivity, ?_⟩
  rw [div_lt_one (by positivity)]
  exact_mod_cast h

theorem mashStep_lt (st b : ℕ) : mashStep st b < 2 ^ 32 :=
  Nat.mod_lt _ (by norm_num)

theorem foldl_mashStep_lt (data : List ℕ) :
    ∀ st, st < 2 ^ 32 → data.foldl mashStep st < 2 ^ 32 := by
  induction data with
  | nil => intro st h; exact h
  | cons b rest ih => intro st _; exact ih (mashStep st b) (mashStep_lt st b)

theorem seedFrac_valid01 {q : ℚ} (h : SeedFrac q) : Valid01 q := by
  obtain ⟨a, ha, rfl⟩ := h
  exact valid01_frac ha

theorem inv2p32_eq : inv2p32 = 1 / (2 : ℚ) ^ 32 := by
  rw [inv2p32, Rat.divInt_eq_div]
  norm_num

theorem repr53_int_div_pow {n : ℤ} {m : ℕ} (h : n.natAbs < 2 ^ 53) :
    Repr53 ((n : ℚ) / 2 ^ m) := by
  refine ⟨n, -(m : ℤ), ?_, h⟩
  rw [zpow_neg, zpow_natCast]
  ring

theorem mash_spec (m : Mash) (data : List ℕ) (hm : m.state < 2 ^ 32) :
    ∃ st : ℕ, st < 2 ^ 32 ∧ (m.mash data).2 = ⟨st⟩ ∧
      (m.mash data).1 = (st : ℚ) / 2 ^ 32 := by
  refine ⟨data.foldl mashStep m.state, foldl_mashStep_lt data m.state hm, rfl, ?_⟩
  show fmul _ inv2p32 = _
  rw [fmul, inv2p32_eq, mul_one_div]
  exact fround_eq_self (repr53_nat_div_pow (by
    have := foldl_mashStep_lt data m.state hm
    omega))

/-- One subtract-and-wrap update of a seed fraction stays a seed
fraction (both float operations are exact here). -/
theorem seedSub_spec {s m0 : ℚ} (hs : SeedFrac s) (hm : SeedFrac m0) :
    SeedFrac (if fsub s m0 < 0 then fadd (fsub s m0) 1 else fsub s m0) := by
  obtain ⟨a, ha, rfl⟩ := hs
  obtain ⟨b, hb, rfl⟩ := hm
  have hsub : fsub ((a : ℚ) / 2 ^ 32) ((b : ℚ) / 2 ^ 32)
      = (((a : ℤ) - b : ℤ) : ℚ) / 2 ^ 32 := by
    rw [fsub, div_sub_div_same]
    rw [show ((a : ℚ) - b) = (((a : ℤ) - b : ℤ) : ℚ) by push_cast; ring]
    exact fround_eq_self (repr53_int_div_pow (by omega))
  rw [hsub]
  by_cases hab : a < b
  · have hneg : (((a : ℤ) - b : ℤ) : ℚ) / 2 ^ 32 < 0 := by
      apply div_neg_of_neg_of_pos ?_ (by positivity)
      have : ((a : ℤ)) < b := by exact_mod_cast hab
      exact_mod_cast sub_neg.mpr this
    rw [if_pos hneg]
    have hadd : fadd ((((a : ℤ) - b : ℤ) : ℚ) / 2 ^ 32) 1
        = (((a : ℤ) - b + 2 ^ 32 : ℤ) : ℚ) / 2 ^ 32 := by
      rw [fadd]
      rw [show (((a : ℤ) - b : ℤ) : ℚ) / 2 ^ 32 + 1
          = (((a : ℤ) - b + 2 ^ 32 : ℤ) : ℚ) / 2 ^ 32 by push_cast; field_simp; norm_num]
      exact fround_eq_self (repr53_int_div_pow (by omega))
    rw [hadd]
    refine ⟨a + 2 ^ 32 - b, by omega, ?_⟩
    congr 1
    rw [Nat.cast_sub (show b ≤ a + 2 ^ 32 by omega)]
    push_cast
    ring
  · push_neg at hab
    have hpos : 0 ≤ (((a : ℤ) - b : ℤ) : ℚ) / 2 ^ 32 := by
      apply div_nonneg ?_ (by positivity)
      have : ((b : ℤ)) ≤ a := by exact_mod_cast hab
      exact_mod_cast sub_nonneg.mpr this
    rw [if_neg (not_lt.mpr hpos)]
    refine ⟨a - b, by omega, ?_⟩
    congr 1
    rw [Nat.cast_sub hab]
    push_cast
    ring

theorem seedStep_spec (x : ℚ × ℚ × ℚ × Mash) (seed : List ℕ) (h : SeedInv x) :
    SeedInv (seedStep x seed) := by
  obtain ⟨s0, s1, s2, m⟩ := x
  obtain ⟨h0, h1, h2, hm⟩ := h
  obtain ⟨a0, ha0, he0, hv0⟩ := mash_spec m seed hm
  have e0 : m.mash seed = ((a0 : ℚ) / 2 ^ 32, (⟨a0⟩ : Mash)) := Prod.ext hv0 he0
  obtain ⟨a1, ha1, he1, hv1⟩ := mash_spec ⟨a0⟩ seed ha0
  have e1 : (Mash.mk a0).mash seed = ((a1 : ℚ) / 2 ^ 32, (⟨a1⟩ : Mash)) := Prod.ext hv1 he1
  obtain ⟨a2, ha2, he2, hv2⟩ := mash_spec ⟨a1⟩ seed ha1
  have e2 : (Mash.mk a1).mash seed = ((a2 : ℚ) / 2 ^ 32, (⟨a2⟩ : Mash)) := Prod.ext hv2 he2
  simp only [seedStep, e0, e1, e2]
  exact ⟨seedSub_spec h0 ⟨a0, ha0, rfl⟩, seedSub_spec h1 ⟨a1, ha1, rfl⟩,
    seedSub_spec h2 ⟨a2, ha2, rfl⟩, ha2⟩

theorem foldl_seedStep_inv (seeds : List (List ℕ)) :
    ∀ x, SeedInv x → SeedInv (seeds.foldl seedStep x) := by
  induction seeds with
  | nil => intro x h; exact h
  | cons seed rest ih => intro x h; exact ih _ (seedStep_spec x seed h)

/-- The PRNG invariant holds right after construction, for every list of
seed strings. -/
theorem alea_new_inv (seeds : List (List ℕ)) : AleaInv (AleaPrng.new seeds) := by
  unfold AleaPrng.new
  obtain ⟨a0, ha0, he0, hv0⟩ := mash_spec Mash.init [32] (by norm_num [Mash.init])
  have e0 : Mash.init.mash [32] = ((a0 : ℚ) / 2 ^ 32, (⟨a0⟩ : Mash)) := Prod.ext hv0 he0
  obtain ⟨a1, ha1, he1, hv1⟩ := mash_spec ⟨a0⟩ [32] ha0
  have e1 : (Mash.mk a0).mash [32] = ((a1 : ℚ) / 2 ^ 32, (⟨a1⟩ : Mash)) := Prod.ext hv1 he1
  obtain ⟨a2, ha2, he2, hv2⟩ := mash_spec ⟨a1⟩ [32] ha1
  have e2 : (Mash.mk a1).mash [32] = ((a2 : ℚ) / 2 ^ 32, (⟨a2⟩ : Mash)) := Prod.ext hv2 he2
  simp only [e0, e1, e2]
  have hres := foldl_seedStep_inv seeds
    ((a0 : ℚ) / 2 ^ 32, (a1 : ℚ) / 2 ^ 32, (a2 : ℚ) / 2 ^ 32, (⟨a2⟩ : Mash))
    ⟨⟨a0, ha0, rfl⟩, ⟨a1, ha1, rfl⟩, ⟨a2, ha2, rfl⟩, ha2⟩
  generalize hy : seeds.foldl seedStep
      ((a0 : ℚ) / 2 ^ 32, (a1 : ℚ) / 2 ^ 32, (a2 : ℚ) / 2 ^ 32, (⟨a2⟩ : Mash)) = y at hres ⊢
  obtain ⟨t0, t1, t2, tm⟩ := y
  exact ⟨seedFrac_valid01 hres.1, seedFrac_valid01 hres.2.1,
    seedFrac_valid01 hres.2.2.1, by norm_num⟩

/-- On nonnegative arguments, the toward-zero truncation agrees with the
floor (`f64::trunc` and `f64::floor` coincide there). -/
theorem ftrunc_eq_floor {t : ℚ} (h : 0 ≤ t) : ftrunc t = ((⌊t⌋ : ℤ) : ℚ) := by
  have hnum : t.num = (t.num.toNat : ℤ) := (Int.toNat_of_nonneg (Rat.num_nonneg.mpr h)).symm
  have h1 : t.num.tdiv (t.den : ℤ) = ((t.num.toNat / t.den : ℕ) : ℤ) := by
    rw [hnum]
    rfl
  have h2 : ⌊t⌋ = ((t.num.toNat / t.den : ℕ) : ℤ) := by
    rw [Rat.floor_def, hnum]
    exact (Int.ofNat_div _ _).symm
  rw [ftrunc, h1, h2]

theorem repr53_zero : Repr53 0 := ⟨0, 0, by simp, by norm_num⟩

/-- The fractional part `t - ⌊t⌋` of a nonnegative binary64 value is
itself exactly representable (it is the tail of the mantissa). -/
theorem fract_sub_repr {t : ℚ} (ht : Repr53 t) (h0 : 0 ≤ t) :
    Repr53 (t - ((⌊t⌋ : ℤ) : ℚ)) := by
  by_cases hden : t.den = 1
  · have hint : ((t.num : ℤ) : ℚ) = t := by
      conv_rhs => rw [← Rat.num_div_den t]
      rw [hden]
      norm_num
    rw [← hint, Int.floor_intCast, hint, sub_self]
    exact repr53_zero
  · by_cases hlt : t < 1
    · rw [Int.floor_eq_zero_iff.mpr ⟨h0, hlt⟩]
      simpa using ht
    · push_neg at hlt
      obtain ⟨j, hj⟩ := den_pow2 (repr53_dyadic ht)
      have hj1 : 1 ≤ j := by
        rcases Nat.eq_zero_or_pos j with h | h
        · exact absurd (by rw [hj, h, pow_zero]) hden
        · omega
      have hdpos : 0 < t.den := t.pos
      have hodd : ¬ 2 ∣ t.num.natAbs := by
        intro hdvd
        have hcop := t.reduced
        have h2 : 2 ∣ Nat.gcd t.num.natAbs t.den :=
          Nat.dvd_gcd hdvd (by rw [hj]; exact dvd_pow_self 2 (by omega))
        rw [Nat.Coprime] at hcop
        rw [hcop] at h2
        omega
      obtain ⟨c, s2, hc, hcs⟩ := repr53_num ht h0
      have hnumlt : t.num.toNat < 2 ^ 53 := by
        have habs : t.num.natAbs = t.num.toNat := by
          have := Rat.num_nonneg.mpr h0
          omega
        rcases Nat.eq_zero_or_pos s2 with hs | hs
        · rw [hcs, hs, pow_zero, mul_one]
          exact hc
        · exfalso
          rcases Nat.eq_zero_or_pos c with hc0 | hc0
          · have htn0 : t.num.toNat = 0 := by rw [hcs, hc0, zero_mul]
            have hn := Rat.num_nonneg.mpr h0
            have hnum0 : t.num = 0 := by omega
            have ht0' : t = 0 := by
              rw [← Rat.num_div_den t, hnum0]
              norm_num
            rw [ht0'] at hlt
            norm_num at hlt
          · apply hodd
            rw [habs, hcs]
            exact Dvd.dvd.mul_left (dvd_pow_self 2 (by omega)) c
      have hdle : (t.den : ℤ) ≤ t.num := by
        have h1 : (1 : ℚ) ≤ (t.num : ℚ) / (t.den : ℚ) := by
          rw [Rat.num_div_den]
          exact hlt
        rw [le_div_iff (by exact_mod_cast hdpos), one_mul] at h1
        exact_mod_cast h1
      refine ⟨t.num % (t.den : ℤ), -(j : ℤ), ?_, ?_⟩
      · have hd0 : ((t.den : ℚ)) ≠ 0 := by positivity
        have key : t - ((⌊t⌋ : ℤ) : ℚ)
            = ((t.num - ⌊t⌋ * (t.den : ℤ) : ℤ) : ℚ) / (t.den : ℚ) := by
          push_cast
          rw [sub_div, Rat.num_div_den, mul_div_cancel_right₀ _ hd0]
        rw [key]
        rw [show t.num - ⌊t⌋ * (t.den : ℤ) = t.num % (t.den : ℤ) by
          rw [Rat.floor_def, Int.emod_def]
          ring]
        rw [zpow_neg, zpow_natCast]
        rw [show ((2 : ℚ) ^ j) = (t.den : ℚ) by rw [hj]; push_cast; ring]
        ring
      · have hge := Int.emod_nonneg t.num (show (t.den : ℤ) ≠ 0 by positivity)
        have hlt2 := Int.emod_lt_of_pos t.num (show (0:ℤ) < (t.den : ℤ) by exact_mod_cast hdpos)
        omega

/-- One generator step: the returned value is a binary64 value in
`[0,1)` and the invariant is preserved. -/
theorem random_spec (p : AleaPrng) (h : AleaInv p) :
    Valid01 (p.random).1 ∧ AleaInv (p.random).2 := by
  obtain ⟨⟨hr0, h00, h01⟩, hs1, hs2, hc⟩ := h
  set A := fmul (2091639 : ℚ) p.s0 with hA
  have hAprod0 : (0:ℚ) ≤ 2091639 * p.s0 := mul_nonneg (by norm_num) h00
  have hA0 : 0 ≤ A := fround_nonneg hAprod0
  have hAr : Repr53 A :=
    fround_repr hAprod0 (dyadic_mul ⟨2091639, 0, by norm_num⟩ (repr53_dyadic hr0))
  set B := fmul ((p.c : ℚ)) inv2p32 with hB
  have hBval : B = (p.c : ℚ) / 2 ^ 32 := by
    rw [hB, fmul, inv2p32_eq, mul_one_div]
    exact fround_eq_self (repr53_nat_div_pow (by omega))
  have hB0 : 0 ≤ B := by rw [hBval]; positivity
  have hBr : Repr53 B := by rw [hBval]; exact repr53_nat_div_pow (by omega)
  set t := fadd A B with hT
  have hsum0 : 0 ≤ A + B := by linarith
  have ht0 : 0 ≤ t := fround_nonneg hsum0
  have htr : Repr53 t :=
    fround_repr hsum0 (dyadic_add (repr53_dyadic hAr) (repr53_dyadic hBr))
  have hfract : ffract t = t - ((⌊t⌋ : ℤ) : ℚ) := by
    rw [ffract, ftrunc_eq_floor ht0, fsub]
    exact fround_eq_self (fract_sub_repr htr ht0)
  have hfr : Valid01 (ffract t) := by
    rw [hfract]
    refine ⟨fract_sub_repr htr ht0, ?_, ?_⟩
    · linarith [Int.floor_le t]
    · linarith [Int.lt_floor_add_one t]
  constructor
  · exact hfr
  · refine ⟨hs1, hs2, hfr, ?_⟩
    show min _ _ < 2 ^ 32
    have := min_le_right ((t.num.tdiv (t.den : ℤ)).toNat) (2 ^ 64 - 1)
    show min ((t.num.tdiv (t.den : ℤ)).toNat) (2 ^ 32 - 1) < 2 ^ 32
    omega

/-- A binary64 value below `1` is at most `1 - 2^-53` (the predecessor
of `1`). -/
theorem valid01_le_one_sub {r : ℚ} (h : Valid01 r) :
    r ≤ 1 - ((2 : ℚ) ^ 53)⁻¹ := by
  obtain ⟨⟨n, k, hq, hn⟩, h0, h1⟩ := h
  rcases eq_or_lt_of_le h0 with h00 | hpos
  · rw [← h00]
    norm_num
  · have hn0 : n ≠ 0 := by
      rintro rfl
      rw [Int.cast_zero, zero_mul] at hq
      exact absurd hq hpos.ne'
    have hnpos : 0 < n := by
      by_contra hcon
      push_neg at hcon
      have hcast : ((n : ℚ)) ≤ 0 := Int.cast_nonpos.mpr hcon
      have hle : (n : ℚ) * 2 ^ k ≤ 0 :=
        mul_nonpos_of_nonpos_of_nonneg hcast (by positivity)
      rw [← hq] at hle
      linarith
    rcases le_or_lt 0 k with hk | hk
    · exfalso
      lift k to ℕ using hk with m
      have h1n : (1:ℚ) ≤ (n : ℚ) := by exact_mod_cast hnpos
      have h1p : (1:ℚ) ≤ 2 ^ (m : ℤ) := by
        rw [zpow_natCast]
        exact one_le_pow₀ (by norm_num)
      nlinarith [hq, h1]
    · set m := (-k).toNat with hm
      have hkm : k = -(m : ℤ) := by omega
      have hqm : r = (n : ℚ) / 2 ^ m := by
        rw [hq, hkm, zpow_neg, zpow_natCast]
        ring
      have hplt : (n : ℚ) < 2 ^ m := by
        rw [hqm, div_lt_one (by positivity)] at h1
        exact h1
      rcases le_or_lt m 53 with hm53 | hm53
      · have hnle : (n : ℚ) ≤ 2 ^ m - 1 := by
          have : n ≤ 2 ^ m - 1 := by
            have : n < 2 ^ m := by exact_mod_cast hplt
            omega
          calc (n:ℚ) ≤ ((2 ^ m - 1 : ℤ) : ℚ) := by exact_mod_cast this
            _ = 2 ^ m - 1 := by push_cast; ring
        rw [hqm]
        calc (n : ℚ) / 2 ^ m ≤ (2 ^ m - 1) / 2 ^ m := by gcongr
          _ = 1 - ((2:ℚ) ^ m)⁻¹ := by
              rw [sub_div, div_self (by positivity), one_div]
          _ ≤ 1 - ((2:ℚ) ^ 53)⁻¹ := by gcongr <;> norm_num
      · have hnle : (n : ℚ) ≤ 2 ^ 53 - 1 := by
          have : n ≤ 2 ^ 53 - 1 := by omega
          calc (n:ℚ) ≤ ((2 ^ 53 - 1 : ℤ) : ℚ) := by exact_mod_cast this
            _ = 2 ^ 53 - 1 := by push_cast; ring
        have hmge : ((2:ℚ) ^ 54) ≤ 2 ^ m := by
          apply pow_le_pow_right₀ (by norm_num)
          omega
        rw [hqm]
        calc (n : ℚ) / 2 ^ m ≤ (2 ^ 53 - 1) / 2 ^ 54 :=
              div_le_div (by norm_num) hnle (by positivity) hmge
          _ ≤ 1 - ((2:ℚ) ^ 53)⁻¹ := by norm_num

theorem rat_floor_eq_int_floor (q : ℚ) : Rat.floor q = ⌊q⌋ :=
  (Rat.floor_def' q).trans Rat.floor_def.symm

/-- The drawn index `(random() * len).floor() as usize` is always in
range: a binary64 value in `[0,1)` times the pool size, rounded and
floored, stays below the pool size. -/
theorem index_lt {r : ℚ} (h : Valid01 r) {L : ℕ} (hL : 1 ≤ L) (hL7 : L ≤ 7) :
    f64toUsize (ffloor (fmul r (L : ℚ))) < L := by
  obtain ⟨hrr, hr0, hr1⟩ := h
  have hrub : r ≤ 1 - ((2:ℚ) ^ 53)⁻¹ := valid01_le_one_sub ⟨hrr, hr0, hr1⟩
  have hL0 : (0:ℚ) < (L : ℚ) := by exact_mod_cast hL
  have hL7q : (L : ℚ) ≤ 7 := by exact_mod_cast hL7
  have hp0 : (0:ℚ) ≤ r * L := mul_nonneg hr0 hL0.le
  have hmul_lt : fmul r (L : ℚ) < L := by
    have hle := fround_le hp0
    have h1 : r * L ≤ (1 - ((2:ℚ) ^ 53)⁻¹) * L := by
      apply mul_le_mul_of_nonneg_right hrub hL0.le
    have hq53 : (0:ℚ) < ((2:ℚ) ^ 53)⁻¹ := by positivity
    have hq53le : ((2:ℚ) ^ 53)⁻¹ ≤ 1 := by norm_num
    show fmul r (L : ℚ) < (L : ℚ)
    calc fmul r (L : ℚ) ≤ r * L + (r * L) / 2 ^ 53 := hle
      _ = (r * L) * (1 + ((2:ℚ) ^ 53)⁻¹) := by
          rw [div_eq_mul_inv]
          ring
      _ ≤ ((1 - ((2:ℚ) ^ 53)⁻¹) * L) * (1 + ((2:ℚ) ^ 53)⁻¹) := by
          apply mul_le_mul_of_nonneg_right h1 (by positivity)
      _ = (L : ℚ) * (1 - ((2:ℚ) ^ 53)⁻¹ * ((2:ℚ) ^ 53)⁻¹) := by ring
      _ < (L : ℚ) * 1 := by
          apply mul_lt_mul_of_pos_left ?_ hL0
          nlinarith
      _ = (L : ℚ) := mul_one _
  have hmul0 : 0 ≤ fmul r (L : ℚ) := fround_nonneg hp0
  have hfl_lt : ⌊fmul r (L : ℚ)⌋ < (L : ℤ) := by
    rw [Int.floor_lt]
    exact_mod_cast hmul_lt
  have hfl_0 : 0 ≤ ⌊fmul r (L : ℚ)⌋ := Int.floor_nonneg.mpr hmul0
  rw [ffloor, rat_floor_eq_int_floor]
  rw [f64toUsize]
  rw [Rat.num_intCast, Rat.den_intCast]
  rw [show ((1 : ℕ) : ℤ) = 1 from rfl, Int.tdiv_one]
  have : (⌊fmul r (L : ℚ)⌋).toNat < L := by omega
  omega

theorem drawSeq_length : ∀ (fuel : ℕ) (rng : AleaPrng) (pool : List Piece)
    (l : List Piece) (rng2 : AleaPrng),
    drawSeq fuel rng pool = some (l, rng2) → l.length = fuel := by
  intro fuel
  induction fuel with
  | zero =>
    intro rng pool l rng2 h
    simp only [drawSeq, Option.some_inj, Prod.mk.injEq] at h
    rw [← h.1]
    rfl
  | succ n ih =>
    intro rng pool l rng2 h
    simp only [drawSeq] at h
    rcases hg : pool.get? (f64toUsize (ffloor (fmul (rng.random).1 (pool.length : ℚ))))
      with _ | p
    · rw [hg] at h
      exact absurd h (by simp)
    · rw [hg] at h
      rcases hd : drawSeq n (rng.random).2
          (pool.eraseIdx (f64toUsize (ffloor (fmul (rng.random).1 (pool.length : ℚ)))))
        with _ | lr
      · rw [hd] at h
        exact absurd h (by simp)
      · rw [hd] at h
        simp only [Option.map_some', Option.some_inj, Prod.mk.injEq] at h
        rw [← h.1]
        simp [ih _ _ _ _ hd]

theorem drawSeq_spec : ∀ (fuel : ℕ) (rng : AleaPrng) (pool : List Piece),
    AleaInv rng → fuel = pool.length → pool.length ≤ 7 →
    ∃ l rng2, drawSeq fuel rng pool = some (l, rng2) ∧ l.Perm pool ∧ AleaInv rng2 := by
  intro fuel
  induction fuel with
  | zero =>
    intro rng pool hinv hlen _
    have : pool = [] := List.length_eq_zero.mp hlen.symm
    subst this
    exact ⟨[], rng, rfl, List.Perm.refl _, hinv⟩
  | succ n ih =>
    intro rng pool hinv hlen hle
    obtain ⟨hv, hinv2⟩ := random_spec rng hinv
    have hL1 : 1 ≤ pool.length := by omega
    have hidx := index_lt hv hL1 (by omega)
    set i := f64toUsize (ffloor (fmul (rng.random).1 (pool.length : ℚ))) with hi
    have hget : pool.get? i = some (pool.get ⟨i, hidx⟩) := List.get?_eq_get hidx
    have hlen2 : (pool.eraseIdx i).length = n := by
      rw [List.length_eraseIdx]
      simp [hidx]
      omega
    obtain ⟨l2, rng2, hds, hperm, hinv3⟩ :=
      ih (rng.random).2 (pool.eraseIdx i) hinv2 hlen2.symm (by omega)
    refine ⟨pool.get ⟨i, hidx⟩ :: l2, rng2, ?_, ?_, hinv3⟩
    · simp only [drawSeq, ← hi, hget, hds, Option.map_some']
    · have hsplit : List.Perm (pool.get ⟨i, hidx⟩ :: pool.eraseIdx i) pool := by
        rw [List.eraseIdx_eq_take_drop_succ]
        have h1 : List.Perm (pool.get ⟨i, hidx⟩ :: (pool.take i ++ pool.drop (i + 1)))
            (pool.take i ++ pool.get ⟨i, hidx⟩ :: pool.drop (i + 1)) := List.perm_middle.symm
        have h2 : pool.take i ++ pool.get ⟨i, hidx⟩ :: pool.drop (i + 1) = pool := by
          rw [List.get_eq_getElem, List.getElem_cons_drop]
          exact List.take_append_drop i pool
        rw [h2] at h1
        exact h1
      exact (hperm.cons _).trans hsplit

theorem fresh_bag_spec (rng : AleaPrng) (h : AleaInv rng) :
    ∃ fb rng2, fresh_bag rng = some (fb, rng2) ∧ fb.Perm FRESH_BAG ∧ AleaInv rng2 := by
  obtain ⟨l, rng2, hds, hperm, hinv⟩ := drawSeq_spec 7 rng FRESH_BAG h rfl (by decide)
  refine ⟨l.reverse, rng2, ?_, (l.reverse_perm).trans hperm, hinv⟩
  rw [fresh_bag, hds]
  rfl

theorem getN_full (prng : AleaPrng) (l : List Piece) :
    getN l.length ⟨prng, l⟩ = some (l.reverse, ⟨prng, []⟩) := by
  induction l using List.reverseRecOn with
  | nil => rfl
  | append_singleton l a ih =>
    have hget : (JstrisBag.mk prng (l ++ [a])).get = some (a, ⟨prng, l⟩) := by
      rw [JstrisBag.get]
      simp only [List.getLast?_concat, List.dropLast_concat]
    rw [List.length_append, List.length_singleton]
    simp only [getN, hget]
    simp only [Option.some_bind]
    rw [ih]
    simp [List.reverse_append]

theorem isSZ_iff (p : Piece) : isSZ p = true ↔ p = Piece.S ∨ p = Piece.Z := by
  cases p <;> simp [isSZ]

/-- Seven `get` calls on an empty bag: one refill, then seven pops,
dispensing the refill bag back-to-front. -/
theorem getN_refill (prng : AleaPrng) (h : AleaInv prng) :
    ∃ fb prng2, fresh_bag prng = some (fb, prng2) ∧ fb.Perm FRESH_BAG ∧ AleaInv prng2 ∧
      getN 7 ⟨prng, []⟩ = some (fb.reverse, ⟨prng2, []⟩) := by
  obtain ⟨fb, prng2, hfb, hperm, hinv⟩ := fresh_bag_spec prng h
  have hlen : fb.length = 7 := hperm.length_eq
  have hne : fb ≠ [] := by
    intro hc
    rw [hc] at hlen
    simp at hlen
  refine ⟨fb, prng2, hfb, hperm, hinv, ?_⟩
  have hget : (JstrisBag.mk prng []).get = some (fb.getLast hne, ⟨prng2, fb.dropLast⟩) := by
    unfold JstrisBag.get
    simp only [List.getLast?_nil, hfb, Option.some_bind]
    rw [List.getLast?_eq_getLast fb hne]
  have hstep : getN 7 (⟨prng, []⟩ : JstrisBag)
      = ((JstrisBag.mk prng []).get).bind fun pb =>
          (getN 6 pb.2).map fun lb => (pb.1 :: lb.1, lb.2) := rfl
  rw [hstep, hget]
  simp only [Option.some_bind]
  have hdl : fb.dropLast.length = 6 := by
    rw [List.length_dropLast, hlen]
  rw [← hdl, getN_full]
  have hrev : fb.getLast hne :: fb.dropLast.reverse = fb.reverse := by
    conv_rhs => rw [← List.dropLast_append_getLast hne]
    rw [List.reverse_append]
    rfl
  simp [hrev]

/-- The seam correction permutes the bag (it only swaps elements). -/
theorem seamFixRev_perm (u : List Piece) : List.Perm (seamFixRev u) u := by
  rcases u with _ | ⟨z, _ | ⟨y, _ | ⟨x, t⟩⟩⟩
  · rfl
  · rfl
  · simp only [seamFixRev]
    split
    · exact List.Perm.swap z y []
    · rfl
  · simp only [seamFixRev]
    split
    · exact
        ((List.Perm.swap y x (z :: t)).trans
          ((List.Perm.swap z x t).cons y)).trans (List.Perm.swap z y (x :: t))
    · split
      · exact List.Perm.swap z y (x :: t)
      · rfl

theorem seamFix_perm (l : List Piece) : List.Perm (seamFix l) l := by
  show List.Perm (seamFixRev l.reverse).reverse l
  exact ((List.reverse_perm (seamFixRev l.reverse)).trans
    (seamFixRev_perm l.reverse)).trans l.reverse_perm

/-- After the seam correction, the head of the reversed buffer (the next
piece to be popped) is not S or Z, provided the buffer holds at most one
S and one Z. -/
theorem seamFixRev_head_not_SZ (u : List Piece) (hlen : 3 ≤ u.length)
    (hS : u.count Piece.S ≤ 1) (hZ : u.count Piece.Z ≤ 1) :
    ∃ p rest2, seamFixRev u = p :: rest2 ∧ isSZ p = false := by
  rcases u with _ | ⟨z, _ | ⟨y, _ | ⟨x, t⟩⟩⟩
  · simp at hlen
  · simp at hlen
  · simp at hlen
  · simp only [seamFixRev]
    by_cases hzy : (isSZ z && isSZ y) = true
    · rw [if_pos hzy]
      refine ⟨x, _, rfl, ?_⟩
      obtain ⟨hz, hy⟩ := Bool.and_eq_true_iff.mp hzy
      by_contra hx
      rw [Bool.not_eq_false] at hx
      rcases (isSZ_iff z).mp hz with rfl | rfl <;>
        rcases (isSZ_iff y).mp hy with rfl | rfl <;>
        rcases (isSZ_iff x).mp hx with rfl | rfl <;>
        simp [List.count_cons] at hS hZ
    · rw [if_neg hzy]
      by_cases hz : isSZ z = true
      · rw [if_pos hz]
        refine ⟨y, _, rfl, ?_⟩
        rcases Bool.eq_false_or_eq_true (isSZ y) with hy | hy
        · exact absurd (Bool.and_eq_true_iff.mpr ⟨hz, hy⟩) hzy
        · exact hy
      · rw [if_neg hz]
        exact ⟨z, _, rfl, by simpa using hz⟩

/-- The piece the corrected first bag dispenses first is never S or Z. -/
theorem seamFix_getLast_not_SZ {l : List Piece} (hperm : List.Perm l FRESH_BAG) :
    ∃ p, (seamFix l).getLast? = some p ∧ isSZ p = false := by
  have hlen : l.length = 7 := hperm.length_eq
  have hS : l.count Piece.S ≤ 1 := by
    rw [hperm.count_eq]
    decide
  have hZ : l.count Piece.Z ≤ 1 := by
    rw [hperm.count_eq]
    decide
  obtain ⟨p, rest2, hfix, hnot⟩ := seamFixRev_head_not_SZ l.reverse
    (by rw [List.length_reverse]; omega)
    (by rw [List.count_reverse]; exact hS)
    (by rw [List.count_reverse]; exact hZ)
  refine ⟨p, ?_, hnot⟩
  show (seamFixRev l.reverse).reverse.getLast? = some p
  rw [List.getLast?_eq_head?_reverse, List.reverse_reverse, hfix]
  rfl

theorem jstrisBag_new_spec (g : GameSeed) :
    ∃ fb prng2, fresh_bag (AleaPrng.new [g.strView]) = some (fb, prng2) ∧
      List.Perm fb FRESH_BAG ∧ AleaInv prng2 ∧
      JstrisBag.new g = some ⟨prng2, seamFix fb⟩ := by
  obtain ⟨fb, prng2, hfb, hperm, hinv⟩ := fresh_bag_spec _ (alea_new_inv [g.strView])
  refine ⟨fb, prng2, hfb, hperm, hinv, ?_⟩
  rw [JstrisBag.new, hfb]
  rfl

/-- C10: for every valid game seed the very first piece `get()` returns
is neither S nor Z — the seam-correction swap acts on the tail of the
stored buffer, which is exactly the first-dispensed position. -/
theorem jstris_first_piece_not_SZ :
    ∀ (s : List ℕ) (g : GameSeed), GameSeed.parse s = .ok g →
      ∃ b p b2, JstrisBag.new g = some b ∧ b.get = some (p, b2) ∧
        p ≠ Piece.S ∧ p ≠ Piece.Z := by
  intro s g _
  obtain ⟨fb, prng2, hfb, hperm, hinv, hnew⟩ := jstrisBag_new_spec g
  obtain ⟨p, hlast, hnot⟩ := seamFix_getLast_not_SZ hperm
  refine ⟨⟨prng2, seamFix fb⟩, p, ⟨prng2, (seamFix fb).dropLast⟩, hnew, ?_, ?_, ?_⟩
  · unfold JstrisBag.get
    simp only [hlast]
  · rintro rfl
    simp [isSZ] at hnot
  · rintro rfl
    simp [isSZ] at hnot

/-- Witness for C10 at the seed `"8"`. -/
theorem jstris_first_piece_not_SZ_witness :
    GameSeed.parse [56] = .ok eightSeed ∧
    (∃ b p b2, JstrisBag.new eightSeed = some b ∧ b.get = some (p, b2) ∧
      p ≠ Piece.S ∧ p ≠ Piece.Z) :=
  ⟨by decide, jstris_first_piece_not_SZ [56] eightSeed (by decide)⟩

/-- C8: for every valid game seed, the first seven dispensed pieces are
a permutation of the seven kinds, and the next seven (a fresh refill
bag) again are; all draws succeed (each index is in range). -/
theorem jstris_bag_dispenses_permutations :
    ∀ (s : List ℕ) (g : GameSeed), GameSeed.parse s = .ok g →
      ∃ b l1 b7 l2 b14, JstrisBag.new g = some b ∧
        getN 7 b = some (l1, b7) ∧ List.Perm l1 FRESH_BAG ∧
        getN 7 b7 = some (l2, b14) ∧ List.Perm l2 FRESH_BAG := by
  intro s g _
  obtain ⟨fb, prng2, hfb, hperm, hinv, hnew⟩ := jstrisBag_new_spec g
  have hlen7 : (seamFix fb).length = 7 := (seamFix_perm fb).length_eq.trans hperm.length_eq
  have h1 : getN 7 ⟨prng2, seamFix fb⟩ = some ((seamFix fb).reverse, ⟨prng2, []⟩) := by
    rw [← hlen7]
    exact getN_full prng2 (seamFix fb)
  obtain ⟨fb2, prng3, hfb2, hperm2, hinv3, hN2⟩ := getN_refill prng2 hinv
  exact ⟨_, _, _, _, _, hnew, h1,
    (List.reverse_perm _).trans ((seamFix_perm fb).trans hperm), hN2,
    (List.reverse_perm _).trans hperm2⟩

/-- Witness for C8 at the seed `"8"`. -/
theorem jstris_bag_dispenses_permutations_witness :
    GameSeed.parse [56] = .ok eightSeed ∧
    (∃ b l1 b7 l2 b14, JstrisBag.new eightSeed = some b ∧
      getN 7 b = some (l1, b7) ∧ List.Perm l1 FRESH_BAG ∧
      getN 7 b7 = some (l2, b14) ∧ List.Perm l2 FRESH_BAG) :=
  ⟨by decide, jstris_bag_dispenses_permutations [56] eightSeed (by decide)⟩

/-- C4 (amended): the seam correction protects the *first*-dispensed end
of the first bag: the first two pieces dispensed are never both from
`{S, Z}` (indeed the very first is never S or Z); the swap exchanges the
trailing S/Z of the stored buffer — the leading piece in dispensed
order — with the element before it, and only the first bag is
corrected. -/
theorem jstris_first_two_not_both_SZ :
    ∀ (s : List ℕ) (g : GameSeed), GameSeed.parse s = .ok g →
      ∃ b l b7, JstrisBag.new g = some b ∧ getN 7 b = some (l, b7) ∧
        ∀ p1 p2 rest, l = p1 :: p2 :: rest → ¬(isSZ p1 = true ∧ isSZ p2 = true) := by
  intro s g _
  obtain ⟨fb, prng2, hfb, hperm, hinv, hnew⟩ := jstrisBag_new_spec g
  obtain ⟨p, hlast, hnot⟩ := seamFix_getLast_not_SZ hperm
  have hlen7 : (seamFix fb).length = 7 := (seamFix_perm fb).length_eq.trans hperm.length_eq
  have h1 : getN 7 ⟨prng2, seamFix fb⟩ = some ((seamFix fb).reverse, ⟨prng2, []⟩) := by
    rw [← hlen7]
    exact getN_full prng2 (seamFix fb)
  refine ⟨_, _, _, hnew, h1, ?_⟩
  rintro p1 p2 rest hl ⟨h1sz, _⟩
  have hhead : (seamFix fb).reverse.head? = some p1 := by rw [hl]; rfl
  rw [← List.getLast?_eq_head?_reverse, hlast] at hhead
  rw [Option.some_inj] at hhead
  rw [hhead] at hnot
  rw [h1sz] at hnot
  simp at hnot

/-- Witness for the amended C4 at the seed `"8"`. -/
theorem jstris_first_two_not_both_SZ_witness :
    GameSeed.parse [56] = .ok eightSeed ∧
    (∃ b l b7, JstrisBag.new eightSeed = some b ∧ getN 7 b = some (l, b7) ∧
      ∀ p1 p2 rest, l = p1 :: p2 :: rest → ¬(isSZ p1 = true ∧ isSZ p2 = true)) :=
  ⟨by decide, jstris_first_two_not_both_SZ [56] eightSeed (by decide)⟩

/-- C4 (counterexample): for the valid seed `"8"`, the first bag in
dispensed order is `[J, O, I, T, L, S, Z]` — its *last two* dispensed
pieces are S and Z, both from `{S, Z}`.  The seam correction protects
the other end of the bag. -/
theorem jstris_seed_eight_first_bag_ends_SZ :
    GameSeed.parse [56] = .ok eightSeed ∧
    ((JstrisBag.new eightSeed).bind (getN 7)).map Prod.fst
      = some [.J, .O, .I, .T, .L, .S, .Z] ∧
    ([.J, .O, .I, .T, .L, .S, .Z] : List Piece).drop 5 = [.S, .Z] ∧
    isSZ .S = true ∧ isSZ .Z = true := by
  refine ⟨by decide, by decide, by decide, rfl, rfl⟩

/-- C3 (amended): `fresh_bag` stores the *reverse* of the removal order,
but `get` pops from the stack's end, so the two reversals cancel: the
bag dispenses the pieces in exactly the order they were removed from the
pool — an element removed earlier is dispensed earlier, and the first
element removed is the *first* piece `get()` returns. -/
theorem fresh_bag_dispenses_removal_order :
    ∀ (rng : AleaPrng) (R : List Piece) (rng2 : AleaPrng),
      drawSeq 7 rng FRESH_BAG = some (R, rng2) →
      fresh_bag rng = some (R.reverse, rng2) ∧
      getN 7 ⟨rng2, R.reverse⟩ = some (R, ⟨rng2, []⟩) := by
  intro rng R rng2 hds
  have hlen : R.length = 7 := drawSeq_length 7 rng FRESH_BAG R rng2 hds
  constructor
  · rw [fresh_bag, hds]
    rfl
  · have hlr : R.reverse.length = 7 := by
      rw [List.length_reverse]
      exact hlen
    rw [← hlr, getN_full, List.reverse_reverse]

/-- Witness for the amended C3 at the PRNG seeded from `"asdf"`. -/
theorem fresh_bag_dispenses_removal_order_witness :
    ∃ R rng2, drawSeq 7 asdfPrng FRESH_BAG = some (R, rng2) ∧
      fresh_bag asdfPrng = some (R.reverse, rng2) ∧
      getN 7 ⟨rng2, R.reverse⟩ = some (R, ⟨rng2, []⟩) := by
  obtain ⟨⟨R, rng2⟩, hds⟩ : ∃ x, drawSeq 7 asdfPrng FRESH_BAG = some x := ⟨_, rfl⟩
  obtain ⟨h1, h2⟩ := fresh_bag_dispenses_removal_order asdfPrng R rng2 hds
  exact ⟨R, rng2, hds, h1, h2⟩

/-- C3 (counterexample): for the seed `"asdf"`, the removal order is
`[S, T, O, Z, J, I, L]` and the seven pops dispense exactly that order —
not its reverse; the first element removed (S) is the *first* piece
dispensed, and the last dispensed piece is L ≠ S. -/
theorem fresh_bag_asdf_not_reversed :
    (drawSeq 7 asdfPrng FRESH_BAG).map Prod.fst = some asdfRemovalOrder ∧
    (fresh_bag asdfPrng).map Prod.fst = some asdfRemovalOrder.reverse ∧
    ((fresh_bag asdfPrng).bind fun br => (getN 7 ⟨br.2, br.1⟩).map Prod.fst)
      = some asdfRemovalOrder ∧
    asdfRemovalOrder ≠ asdfRemovalOrder.reverse ∧
    asdfRemovalOrder.head? = some Piece.S ∧
    asdfRemovalOrder.getLast? = some Piece.L := by
  refine ⟨by decide, by decide, by decide, by decide, rfl, rfl⟩
